import Mathlib

/-!
Verification of the tablelinker transformation engine.

Shallow embedding of the core of `tablelinker`:
the column reorder/insert/delete algebra of `core/convertors.py`,
the parameter checking of `core/context.py` and `core/params.py`,
the header-mapping engine of `core/mapping.py`,
the Excel-serial and era-year branches of `core/date_extractor.py`,
and the temporary-file handling of `Table.convert` in `core/table.py`.

Python lists are modelled as `List`, Python `int` as `Int` (or `Nat`
where the source guarantees non-negativity), Python `None`-or-int as
`Option Int`, and Python `float` values reaching the date arithmetic as
exact rationals.  Functions that can raise return `Except`/`Option` or a
dedicated result type with an explicit error constructor.
-/

namespace TableLinker

/-! ### Python list primitives -/

/-- Python `list.insert(i, x)` for a non-negative index `i`: inserts
before position `i`, appending at the end when `i` is at least the
length (Python clamps, it does not fail). -/
def pyInsert (l : List α) (i : Nat) (x : α) : List α :=
  l.take i ++ x :: l.drop i

/-- Python `del l[i]` / `l.pop(i)`: a negative index counts from the
end; an index that is out of range even after that adjustment raises
`IndexError` in Python and is modelled here as a no-op (the hypotheses
of every theorem below keep the index in range). -/
def pyDelete (l : List α) (i : Int) : List α :=
  if 0 ≤ i ∧ i < l.length then l.eraseIdx i.toNat
  else if i < 0 ∧ 0 ≤ i + l.length then l.eraseIdx (i + l.length).toNat
  else l

/-- Python slice bound, as in `l[0:i]` / `l[i:]`: a negative bound counts
from the end of the list and everything is clamped into `[0, len]`. -/
def pySliceIdx (len : Nat) (i : Int) : Nat :=
  if i < 0 then (i + len).toNat else min i.toNat len

theorem pyDelete_ofNat (l : List α) (k : Nat) (hk : k < l.length) :
    pyDelete l (k : Int) = l.eraseIdx k := by
  unfold pyDelete
  rw [if_pos ⟨by omega, by omega⟩]
  simp

theorem pyInsert_length (l : List α) (i : Nat) (x : α) :
    (pyInsert l i x).length = l.length + 1 := by
  simp [pyInsert]
  omega

theorem pyInsert_getElem_min (l : List α) (i : Nat) (x : α) :
    (pyInsert l i x)[min i l.length]? = some x := by
  unfold pyInsert
  have hlen : (l.take i).length = min i l.length := by simp
  rw [List.getElem?_append_right (le_of_eq hlen)]
  have hz : min i l.length - (l.take i).length = 0 := by omega
  rw [hz]
  simp

/-! ### `InputOutputConvertor.reorder` (convertors.py:506-518), claim C1 -/

/-- Embedding of `InputOutputConvertor.reorder` for a single (non-list)
insert value.  The source copies the input (`original[:]`), optionally
pops `del_idx`, decrements `insert_idx` when the deleted index was
smaller, then inserts (append when the adjusted index is negative);
the returned list is that fresh copy, the argument is never mutated,
which the pure embedding reflects by construction. -/
def reorder (original : List α) (del_idx : Option Int) (insert_idx : Int)
    (insert_value : α) : List α :=
  match del_idx with
  | none =>
      if insert_idx < 0 then original ++ [insert_value]
      else pyInsert original insert_idx.toNat insert_value
  | some d =>
      let popped := pyDelete original d
      let i := if d < insert_idx then insert_idx - 1 else insert_idx
      if i < 0 then popped ++ [insert_value]
      else pyInsert popped i.toNat insert_value

/-- Position at which `reorder` finally places the inserted value:
the insert index adjusted for the deletion, clamped into the
post-deletion list, and the end of the list when negative. -/
def reorderInsertPos (len : Nat) (del_idx : Option Int) (insert_idx : Int) : Nat :=
  let len' := len - (if del_idx.isSome then 1 else 0)
  let i : Int := match del_idx with
    | none => insert_idx
    | some d => if d < insert_idx then insert_idx - 1 else insert_idx
  if i < 0 then len' else min i.toNat len'

theorem append_getElem_length (l : List α) (x : α) :
    (l ++ [x])[l.length]? = some x := by
  rw [List.getElem?_append_right (le_refl _)]
  simp

theorem reorder_none_eq (S : List α) (i : Int) (v : α) :
    reorder S none i v
      = if i < 0 then S ++ [v] else pyInsert S i.toNat v := rfl

theorem reorder_some_eq (S : List α) (d i : Int) (v : α) :
    reorder S (some d) i v
      = (if (if d < i then i - 1 else i) < 0
         then pyDelete S d ++ [v]
         else pyInsert (pyDelete S d) (if d < i then i - 1 else i).toNat v) := rfl

theorem reorderInsertPos_none_eq (len : Nat) (i : Int) :
    reorderInsertPos len none i
      = if i < 0 then len else min i.toNat len := rfl

theorem reorderInsertPos_some_eq (len : Nat) (d i : Int) :
    reorderInsertPos len (some d) i
      = (if (if d < i then i - 1 else i) < 0
         then len - 1
         else min (if d < i then i - 1 else i).toNat (len - 1)) := rfl

/-- C1: `InputOutputConvertor.reorder(S, d, i, v)` on a valid delete index
`d` (or `None`) and a single insert value `v` returns a list of length
`len(S) - (1 if d is not None else 0) + 1`, and reading the element at
the final insertion point returns `v`; the input `S` is left unchanged
(the embedding is pure and the source works on the copy `original[:]`). -/
theorem reorder_length_and_insert (S : List α) (d : Option Nat) (i : Int) (v : α)
    (hd : ∀ k, d = some k → k < S.length) :
    (reorder S (d.map (fun n => (n : Int))) i v).length
        = S.length - (if d.isSome then 1 else 0) + 1
    ∧ (reorder S (d.map (fun n => (n : Int))) i v)[reorderInsertPos S.length (d.map (fun n => (n : Int))) i]?
        = some v := by
  cases d with
  | none =>
      show (reorder S none i v).length = S.length - 0 + 1
        ∧ (reorder S none i v)[reorderInsertPos S.length none i]? = some v
      rw [reorder_none_eq, reorderInsertPos_none_eq]
      by_cases hi : i < 0
      · rw [if_pos hi, if_pos hi]
        exact ⟨by simp, append_getElem_length S v⟩
      · rw [if_neg hi, if_neg hi]
        exact ⟨by rw [pyInsert_length]; omega, pyInsert_getElem_min S _ v⟩
  | some k =>
      have hk : k < S.length := hd k rfl
      show (reorder S (some ((k : Int))) i v).length = S.length - 1 + 1
        ∧ (reorder S (some ((k : Int))) i v)[reorderInsertPos S.length
            (some ((k : Int))) i]? = some v
      rw [reorder_some_eq, reorderInsertPos_some_eq, pyDelete_ofNat S k hk]
      have herase : (S.eraseIdx k).length = S.length - 1 :=
        List.length_eraseIdx_of_lt hk
      by_cases hj : (if (k : Int) < i then i - 1 else i) < 0
      · rw [if_pos hj, if_pos hj, ← herase]
        exact ⟨by simp, append_getElem_length _ v⟩
      · rw [if_neg hj, if_neg hj, ← herase]
        exact ⟨by rw [pyInsert_length], pyInsert_getElem_min _ _ v⟩

/-- Witness for C1 at a concrete input: `S = [10, 20, 30]`, delete index
`1`, insert index `0`, value `99`. -/
theorem reorder_length_and_insert_witness :
    (∀ k, (some 1 : Option Nat) = some k → k < ([10, 20, 30] : List Int).length)
    ∧ ((reorder ([10, 20, 30] : List Int) ((some 1 : Option Nat).map (fun n => (n : Int))) 0 99).length
        = ([10, 20, 30] : List Int).length - 1 + 1
      ∧ (reorder ([10, 20, 30] : List Int) ((some 1 : Option Nat).map (fun n => (n : Int))) 0
          99)[reorderInsertPos ([10, 20, 30] : List Int).length
            ((some 1 : Option Nat).map (fun n => (n : Int))) 0]? = some 99) := by
  refine ⟨by decide, ?_⟩
  have h := reorder_length_and_insert ([10, 20, 30] : List Int) (some 1) 0 99
    (fun k hk => by obtain rfl : (1 : Nat) = k := Option.some.inj hk; decide)
  simpa using h

/-! ### `InputOutputConvertor.preproc` / `process_record`
(convertors.py:348-476), claims C3 and C10 -/

/-- Parameters of an `InputOutputConvertor` run, as they come out of
`context.get_param` in `preproc` (convertors.py:373-376):
`input_col_idx` is required and already resolved to a column index,
`output_col_name` and `output_col_idx` may be absent (`None`), and
`overwrite` is a boolean (its declared default is `True`). -/
structure IOParams where
  input_col_idx : Nat
  output_col_name : Option String
  output_col_idx : Option Int
  overwrite : Bool

/-- State an `InputOutputConvertor` carries from `preproc` into
`process_header` / `process_record`. -/
structure IOState where
  input_col_idx : Nat
  output_col_name : String
  output_col_idx : Int
  overwrite : Bool
  del_col : Option Int

/-- Embedding of `InputOutputConvertor.preproc` (convertors.py:348-400).
When no output column name is given the input column's name and position
are reused and that column is recorded for deletion; when the given name
occurs in the headers its first index is recorded for deletion
(`headers.index`); when the name is brand-new, `del_col` is set to
`None` and `overwrite` is set to `True`.  A still-unset output index
finally defaults to the number of columns.  `headers[input_col_idx]` is
total here (`getD`): the index was validated by
`InputAttributeParam.get_value`, which raises for an out-of-range index
before `preproc` runs. -/
def ioPreproc (headers : List String) (p : IOParams) : IOState :=
  let afterName : (String × Option Int × Bool) :=
    match p.output_col_name with
    | none => (headers.getD p.input_col_idx "", some (p.input_col_idx : Int), p.overwrite)
    | some name =>
        if name ∈ headers
        then (name, some (headers.indexOf name : Int), p.overwrite)
        else (name, none, true)
  let ocidPre : Option Int :=
    match p.output_col_name, p.output_col_idx with
    | none, none => some (p.input_col_idx : Int)
    | _, oi => oi
  let ocid : Int :=
    match ocidPre with
    | none => (headers.length : Int)
    | some i => i
  ⟨p.input_col_idx, afterName.1, ocid, afterName.2.2, afterName.2.1⟩

/-- Python `rows[d]` for a non-negative in-range index, with a default
for the out-of-range case that the guarding `len` comparison in
`process_record` makes unreachable. -/
def rowsGet (rows : List String) (d : Int) : String :=
  rows.getD d.toNat ""

/-- Result of one `process_record` call: an output row, a skipped row
(the convertor returned the `False` sentinel), or an uncaught Python
`TypeError` (comparing `None` with an `int`). -/
inductive PRResult (α : Type) where
  | out (r : List α)
  | skip
  | crash
deriving DecidableEq

/-- Embedding of `InputOutputConvertor.process_record`
(convertors.py:431-476).  `conv` is the overridable `process_convertor`;
`conv rows = none` models returning `False` (row skipped).  With
`overwrite` false the source evaluates `self.del_col >= len(rows)`,
which raises `TypeError` when `del_col` is `None` — modelled as
`crash`. -/
def ioProcessRecord (st : IOState) (conv : List String → Option String)
    (rows : List String) : PRResult String :=
  if st.overwrite then
    match conv rows with
    | none => .skip
    | some v => .out (reorder rows st.del_col st.output_col_idx v)
  else
    match st.del_col with
    | none => .crash
    | some d =>
        if (rows.length : Int) ≤ d ∨ rowsGet rows d = "" then
          match conv rows with
          | none => .skip
          | some v => .out (reorder rows (some d) st.output_col_idx v)
        else
          .out (reorder rows (some d) st.output_col_idx (rowsGet rows d))

/-- C3 counterexample: the claim says a brand-new output column name
forces overwrite semantics OFF, but `preproc` (convertors.py:391-394)
sets `self.overwrite = True` in exactly that case: with headers
`["a"]`, output name `"new"` (not an existing header) and the
`overwrite` parameter supplied as `False`, the resulting overwrite flag
is `True`, not `False`. -/
theorem ioPreproc_newname_not_overwrite_off :
    (ioPreproc ["a"] ⟨0, some "new", none, false⟩).overwrite = true := by
  decide

/-- C3 (amended): when the requested output column name is brand-new
(not among the headers), `preproc` forces overwrite semantics ON
(`overwrite = True`, `del_col = None`); and per row, when not
overwriting and the destination column holds a non-empty value, the
existing value is kept (the output is the reorder of the row with the
old value, independent of `process_convertor`, which is not invoked). -/
theorem ioPreproc_newname_and_keep_existing
    (headers : List String) (p : IOParams) (name : String)
    (hname : p.output_col_name = some name) (hnew : name ∉ headers)
    (st : IOState) (conv : List String → Option String) (rows : List String)
    (d : Int) (hov : st.overwrite = false) (hdel : st.del_col = some d)
    (hlen : ¬ ((rows.length : Int) ≤ d)) (hne : rowsGet rows d ≠ "") :
    ((ioPreproc headers p).overwrite = true ∧ (ioPreproc headers p).del_col = none)
    ∧ ioProcessRecord st conv rows
        = .out (reorder rows (some d) st.output_col_idx (rowsGet rows d)) := by
  constructor
  · constructor
    · simp [ioPreproc, hname, hnew]
    · simp [ioPreproc, hname, hnew]
  · unfold ioProcessRecord
    rw [hov, hdel]
    simp only [Bool.false_eq_true, if_false]
    rw [if_neg]
    push_neg
    exact ⟨by omega, hne⟩

/-- Witness for C3 (amended) at concrete inputs: headers `["a"]`,
output name `"new"`, and a row `["x"]` with a non-empty destination
(state with `overwrite = false`, `del_col = 0`). -/
theorem ioPreproc_newname_and_keep_existing_witness :
    (((ioPreproc ["a"] ⟨0, some "new", none, false⟩).overwrite = true
      ∧ (ioPreproc ["a"] ⟨0, some "new", none, false⟩).del_col = none)
    ∧ ioProcessRecord ⟨0, "a", 0, false, some 0⟩ (fun _ => some "computed") ["x"]
        = .out (reorder ["x"] (some 0) 0 (rowsGet ["x"] 0))) := by
  exact ioPreproc_newname_and_keep_existing ["a"] ⟨0, some "new", none, false⟩
    "new" rfl (by decide) ⟨0, "a", 0, false, some 0⟩ (fun _ => some "computed")
    ["x"] 0 rfl rfl (by decide) (by decide)

/-- C10: whenever `preproc` returns, `del_col = None` only together with
`overwrite = True` (the only assignment of `None` to `del_col`,
convertors.py:392-394, also sets `overwrite = True`); consequently the
non-overwrite branch of `process_record`, which evaluates
`self.del_col >= len(rows)` and `rows[self.del_col]`, never sees
`del_col = None` and never raises on a state produced by `preproc`. -/
theorem ioPreproc_del_col_invariant (headers : List String) (p : IOParams) :
    ((ioPreproc headers p).del_col = none → (ioPreproc headers p).overwrite = true)
    ∧ ∀ (conv : List String → Option String) (rows : List String),
        ioProcessRecord (ioPreproc headers p) conv rows ≠ .crash := by
  have hinv : (ioPreproc headers p).del_col = none
      → (ioPreproc headers p).overwrite = true := by
    unfold ioPreproc
    match p.output_col_name with
    | none => intro h; simp at h
    | some name =>
        by_cases hmem : name ∈ headers
        · simp [hmem]
        · simp [hmem]
  refine ⟨hinv, fun conv rows => ?_⟩
  by_cases hov : (ioPreproc headers p).overwrite = true
  · unfold ioProcessRecord
    rw [if_pos hov]
    cases conv rows <;> simp
  · rcases hdc : (ioPreproc headers p).del_col with _ | d
    · exact absurd (hinv hdc) hov
    · unfold ioProcessRecord
      rw [if_neg hov, hdc]
      by_cases hc : ((rows.length : Int) ≤ d ∨ rowsGet rows d = "")
      · cases hcv : conv rows <;> simp [hc, hcv]
      · simp [hc]

/-- Witness for C10 at a concrete input exercising the `del_col = None`
case (brand-new output name) and a run of `process_record`. -/
theorem ioPreproc_del_col_invariant_witness :
    ((ioPreproc ["a"] ⟨0, some "new", none, false⟩).del_col = none
      → (ioPreproc ["a"] ⟨0, some "new", none, false⟩).overwrite = true)
    ∧ ∀ (conv : List String → Option String) (rows : List String),
        ioProcessRecord (ioPreproc ["a"] ⟨0, some "new", none, false⟩) conv rows
          ≠ .crash :=
  ioPreproc_del_col_invariant ["a"] ⟨0, some "new", none, false⟩

/-! ### `InputOutputsConvertor.process_record` (convertors.py:612-641),
claim C4 -/

/-- Loop body of the `overwrite == False` branch of
`InputOutputsConvertor.process_record` (convertors.py:624-634).
`fres` is the (pure) result of `self.process_convertor(rows, context)`;
`values` mirrors the Python local of the same name (`None` until the
first empty slot triggers the single call); the returned counter is the
number of times `process_convertor` was invoked.  `values[i]` is modelled
with `getD` (in Python an out-of-range `i` would raise; the vector
contract gives it one component per output column). -/
def nvAux (fres : List String) : List String → Nat → Option (List String) → Nat
    → (List String × Nat)
  | [], _, _, calls => ([], calls)
  | old :: rest, i, values, calls =>
      if old = "" then
        match values with
        | none =>
            let r := nvAux fres rest (i + 1) (some fres) (calls + 1)
            (fres.getD i "" :: r.1, r.2)
        | some v =>
            let r := nvAux fres rest (i + 1) (some v) calls
            (v.getD i "" :: r.1, r.2)
      else
        let r := nvAux fres rest (i + 1) values calls
        (old :: r.1, r.2)

/-- New output vector and `process_convertor` invocation count for one
row under `overwrite == False` (convertors.py:623-634): `old_values` are
the current contents of the destination slots. -/
def iosNewValues (fres old_values : List String) : List String × Nat :=
  nvAux fres old_values 0 none 0

theorem nvAux_no_empty (fres rest : List String) (i calls : Nat)
    (values : Option (List String))
    (h : ∀ x ∈ rest, x ≠ "") :
    nvAux fres rest i values calls = (rest, calls) := by
  induction rest generalizing i with
  | nil => rfl
  | cons old tl ih =>
      have hold : old ≠ "" := h old (List.mem_cons_self old tl)
      have htl : ∀ x ∈ tl, x ≠ "" := fun x hx => h x (List.mem_cons_of_mem old hx)
      unfold nvAux
      rw [if_neg hold, ih (i + 1) htl]

theorem nvAux_spec (fres : List String) (rest : List String) (i : Nat) :
    (((nvAux fres rest i none 0).1.length = rest.length
        ∧ ∀ j, j < rest.length →
            (nvAux fres rest i none 0).1.getD j ""
              = if rest.getD j "" = "" then fres.getD (i + j) "" else rest.getD j "")
      ∧ ((∃ x ∈ rest, x = "") → (nvAux fres rest i none 0).2 = 1))
    ∧ ∀ (v : List String) (c : Nat),
        ((nvAux fres rest i (some v) c).1.length = rest.length
          ∧ ∀ j, j < rest.length →
              (nvAux fres rest i (some v) c).1.getD j ""
                = if rest.getD j "" = "" then v.getD (i + j) "" else rest.getD j "")
        ∧ (nvAux fres rest i (some v) c).2 = c := by
  induction rest generalizing i with
  | nil =>
      refine ⟨⟨⟨rfl, fun j hj => absurd hj (by simp)⟩, ?_⟩, fun v c => ⟨⟨rfl, fun j hj => absurd hj (by simp)⟩, rfl⟩⟩
      rintro ⟨x, hx, -⟩
      exact absurd hx (by simp)
  | cons old tl ih =>
      have key : ∀ (w : List String) (c : Nat),
          ((nvAux fres (old :: tl) i (some w) c).1.length = (old :: tl).length
            ∧ ∀ j, j < (old :: tl).length →
                (nvAux fres (old :: tl) i (some w) c).1.getD j ""
                  = if (old :: tl).getD j "" = "" then w.getD (i + j) ""
                    else (old :: tl).getD j "")
          ∧ (nvAux fres (old :: tl) i (some w) c).2 = c := by
        intro w c
        by_cases hold : old = ""
        · unfold nvAux
          rw [if_pos hold]
          obtain ⟨⟨hlen, hget⟩, hc⟩ := (ih (i + 1)).2 w c
          refine ⟨⟨by simpa using hlen, fun j hj => ?_⟩, hc⟩
          match j with
          | 0 => simp [hold]
          | j + 1 =>
              have := hget j (by simpa using hj)
              simpa [Nat.add_assoc, Nat.add_comm 1 j] using this
        · unfold nvAux
          rw [if_neg hold]
          obtain ⟨⟨hlen, hget⟩, hc⟩ := (ih (i + 1)).2 w c
          refine ⟨⟨by simpa using hlen, fun j hj => ?_⟩, hc⟩
          match j with
          | 0 => simp [hold]
          | j + 1 =>
              have := hget j (by simpa using hj)
              simpa [Nat.add_assoc, Nat.add_comm 1 j] using this
      refine ⟨?_, key⟩
      by_cases hold : old = ""
      · constructor
        · unfold nvAux
          rw [if_pos hold]
          obtain ⟨⟨hlen, hget⟩, hc⟩ := (ih (i + 1)).2 fres 1
          refine ⟨by simpa using hlen, fun j hj => ?_⟩
          match j with
          | 0 => simp [hold]
          | j + 1 =>
              have := hget j (by simpa using hj)
              simpa [Nat.add_assoc, Nat.add_comm 1 j] using this
        · intro _
          unfold nvAux
          rw [if_pos hold]
          exact ((ih (i + 1)).2 fres 1).2
      · constructor
        · unfold nvAux
          rw [if_neg hold]
          obtain ⟨⟨hlen, hget⟩, -⟩ := (ih (i + 1)).1
          refine ⟨by simpa using hlen, fun j hj => ?_⟩
          match j with
          | 0 => simp [hold]
          | j + 1 =>
              have := hget j (by simpa using hj)
              simpa [Nat.add_assoc, Nat.add_comm 1 j] using this
        · rintro ⟨x, hx, hxe⟩
          unfold nvAux
          rw [if_neg hold]
          have hmem : ∃ y ∈ tl, y = "" := by
            rcases List.mem_cons.1 hx with h | h
            · exact absurd (h ▸ hxe) hold
            · exact ⟨x, h, hxe⟩
          exact (ih (i + 1)).1.2 hmem

/-- C4: with `overwrite` false, if some destination slot is empty the
whole output vector is recomputed by exactly one `process_convertor`
call, and its components are used only for the empty slots (non-empty
slots keep their old value, the recomputed components for them are
discarded); if no destination slot is empty, `process_convertor` is not
invoked at all and every slot keeps its old value. -/
theorem iosNewValues_policy (fres old_values : List String) :
    ((∃ x ∈ old_values, x = "") →
        (iosNewValues fres old_values).2 = 1
        ∧ (iosNewValues fres old_values).1.length = old_values.length
        ∧ ∀ j, j < old_values.length →
            (iosNewValues fres old_values).1.getD j ""
              = if old_values.getD j "" = "" then fres.getD j ""
                else old_values.getD j "")
    ∧ ((∀ x ∈ old_values, x ≠ "") →
        (iosNewValues fres old_values).2 = 0
        ∧ (iosNewValues fres old_values).1 = old_values) := by
  constructor
  · intro hex
    obtain ⟨⟨hlen, hget⟩, hcalls⟩ := (nvAux_spec fres old_values 0).1
    exact ⟨hcalls hex, hlen, fun j hj => by simpa using hget j hj⟩
  · intro hall
    unfold iosNewValues
    rw [nvAux_no_empty fres old_values 0 0 none hall]
    exact ⟨rfl, rfl⟩

/-- Witness for C4 at concrete inputs: old values `["a", "", "b"]` (one
empty slot) and `["a", "b"]` (no empty slot), vector result
`["X", "Y", "Z"]`. -/
theorem iosNewValues_policy_witness :
    ((iosNewValues ["X", "Y", "Z"] ["a", "", "b"]).2 = 1
      ∧ (iosNewValues ["X", "Y", "Z"] ["a", "", "b"]).1.length = 3
      ∧ ∀ j, j < (["a", "", "b"] : List String).length →
          (iosNewValues ["X", "Y", "Z"] ["a", "", "b"]).1.getD j ""
            = if (["a", "", "b"] : List String).getD j "" = ""
              then (["X", "Y", "Z"] : List String).getD j ""
              else (["a", "", "b"] : List String).getD j "")
    ∧ ((iosNewValues ["X", "Y", "Z"] ["a", "b"]).2 = 0
      ∧ (iosNewValues ["X", "Y", "Z"] ["a", "b"]).1 = ["a", "b"]) := by
  constructor
  · have h := (iosNewValues_policy ["X", "Y", "Z"] ["a", "", "b"]).1
      ⟨"", by simp, rfl⟩
    exact ⟨h.1, h.2.1, h.2.2⟩
  · exact (iosNewValues_policy ["X", "Y", "Z"] ["a", "b"]).2 (by decide)

/-! ### `Context.__init__` / `Context.get_param`
(context.py:13-52, 117-140 and params.py:64-140), claim C5 -/

/-- Declared parameter descriptor (class `Param` in params.py): a name,
the `required` flag, the `default_value`, and the `parse_value`
coercion (identity in the base class, overridden by typed params).
Parameter values are an abstract type `α`. -/
structure PDecl (α : Type) where
  name : String
  required : Bool
  default : α
  parse : α → α

/-- Embedding of the parameter checks in `Context.__init__`
(context.py:38-52).  Unknown supplied keys are only collected as
warnings (`logger.warning`, no raise); the first declared parameter
that is `required` but absent from the supplied map raises
(`ValueError`), which happens at construction time, before any row of
the input has been read.  Success returns the warned-about keys. -/
def contextInit (decl : List (PDecl α)) (supplied : List (String × α)) :
    Except String (List String) :=
  let warnings := (supplied.map Prod.fst).filter
    (fun k => ! decl.any (fun p => p.name = k))
  match decl.find? (fun p => p.required && ! supplied.any (fun kv => kv.1 = p.name)) with
  | some p => .error p.name
  | none => .ok warnings

/-- Embedding of `Context.get_param` (context.py:117-140) together with
the base `Param.get_value` (params.py:132-140): an undeclared name
raises; a declared, required name absent from the supplied map raises;
otherwise an absent value yields the declared default
(`self._convertor_params.get(name)` is `None`, and `get_value` maps
`None` to `default_value`), a present value is passed through
`parse_value`. -/
def get_param (decl : List (PDecl α)) (supplied : List (String × α))
    (name : String) : Except String α :=
  match decl.find? (fun p => p.name = name) with
  | none => .error "undeclared"
  | some p =>
      if p.required && ! supplied.any (fun kv => kv.1 = name) then .error "required"
      else
        match supplied.find? (fun kv => kv.1 = name) with
        | none => .ok p.default
        | some kv => .ok (p.parse kv.2)

/-- C5: constructing a `Context` without a supplied value for a declared
required parameter raises (before any row is read — the check is in
`__init__`); constructing one whose supplied map contains undeclared
keys does not raise as long as the required parameters are present (the
unknown keys are merely collected as warnings); `get_param` raises on
every undeclared name no matter what was supplied; and on a
successfully constructed context, `get_param` on a declared name absent
from the supplied map returns the declared default value. -/
theorem context_param_contract (decl : List (PDecl α))
    (supplied : List (String × α)) (name : String) :
    ((∃ p ∈ decl, p.required = true ∧ ∀ kv ∈ supplied, kv.1 ≠ p.name) →
        ∃ e, contextInit decl supplied = .error e)
    ∧ ((∀ p ∈ decl, p.required = true → ∃ kv ∈ supplied, kv.1 = p.name) →
        ∃ w, contextInit decl supplied = .ok w)
    ∧ ((∀ p ∈ decl, p.name ≠ name) →
        get_param decl supplied name = .error "undeclared")
    ∧ (∀ p ∈ decl, p.name = name → (∀ kv ∈ supplied, kv.1 ≠ name) →
        (∃ w, contextInit decl supplied = .ok w) →
        (decl.map PDecl.name).Nodup →
        get_param decl supplied name = .ok p.default) := by
  refine ⟨?_, ?_, ?_, ?_⟩
  · rintro ⟨p, hp, hreq, habs⟩
    rcases hfind : decl.find? (fun p => p.required && ! supplied.any (fun kv => kv.1 = p.name)) with _ | q
    · exfalso
      have hnone := List.find?_eq_none.1 hfind p hp
      apply hnone
      rw [hreq, Bool.true_and, Bool.not_eq_true']
      exact List.any_eq_false.2 (fun kv hkv => by simpa using habs kv hkv)
    · exact ⟨q.name, by simp only [contextInit, hfind]⟩
  · intro hreq
    rcases hfind : decl.find? (fun p => p.required && ! supplied.any (fun kv => kv.1 = p.name)) with _ | q
    · exact ⟨(supplied.map Prod.fst).filter (fun k => ! decl.any (fun p => p.name = k)),
        by simp only [contextInit, hfind]⟩
    · exfalso
      have hqmem := List.mem_of_find?_eq_some hfind
      have hqprop := List.find?_some hfind
      simp only [Bool.and_eq_true, Bool.not_eq_true'] at hqprop
      obtain ⟨kv, hkv, hkveq⟩ := hreq q hqmem hqprop.1
      have hany : supplied.any (fun kv => kv.1 = q.name) = true :=
        List.any_eq_true.2 ⟨kv, hkv, by simpa using hkveq⟩
      rw [hqprop.2] at hany
      exact Bool.false_ne_true hany
  · intro hnot
    rcases hfind : decl.find? (fun p => p.name = name) with _ | q
    · simp only [get_param, hfind]
    · exfalso
      exact hnot q (List.mem_of_find?_eq_some hfind)
        (by simpa using List.find?_some hfind)
  · intro p hp hpname habs hok hnodup
    rcases hfind : decl.find? (fun p => p.name = name) with _ | q
    · exfalso
      have := List.find?_eq_none.1 hfind p hp
      simp [hpname] at this
    · have hqmem := List.mem_of_find?_eq_some hfind
      have hqname : q.name = name := by simpa using List.find?_some hfind
      have hqp : q = p :=
        List.inj_on_of_nodup_map hnodup hqmem hp (hqname.trans hpname.symm)
      have hany : supplied.any (fun kv => kv.1 = name) = false :=
        List.any_eq_false.2 (fun kv hkv => by simpa using habs kv hkv)
      obtain ⟨w, hw⟩ := hok
      have hreqfalse : p.required = false := by
        rcases hfind2 : decl.find? (fun p => p.required && ! supplied.any (fun kv => kv.1 = p.name)) with _ | r
        · have hne := List.find?_eq_none.1 hfind2 p hp
          rcases Bool.eq_false_or_eq_true p.required with h | h
          · exfalso
            apply hne
            rw [h, Bool.true_and, Bool.not_eq_true', hpname]
            exact hany
          · exact h
        · exfalso
          simp only [contextInit, hfind2] at hw
          exact Except.noConfusion hw
      have hfound : supplied.find? (fun kv => kv.1 = name) = none :=
        List.find?_eq_none.2 (fun kv hkv => by simpa using habs kv hkv)
      simp only [get_param, hfind, hqp, hreqfalse, Bool.false_and, Bool.false_eq_true,
        if_false, hfound]

/-- Witness for C5 at concrete inputs: declarations with a required
`"input_col_idx"` and an optional `"overwrite"` (default `1`); a map
missing the required key errors, a map containing it plus an unknown
key is accepted, `get_param` on an undeclared name errors, and
`get_param` on the absent optional name returns the default. -/
theorem context_param_contract_witness :
    (∃ e, contextInit
      [(⟨"input_col_idx", true, (0 : Nat), id⟩ : PDecl Nat), ⟨"overwrite", false, 1, id⟩]
      [("unknown", 5)] = .error e)
    ∧ (∃ w, contextInit
      [(⟨"input_col_idx", true, (0 : Nat), id⟩ : PDecl Nat), ⟨"overwrite", false, 1, id⟩]
      [("input_col_idx", 2), ("unknown", 5)] = .ok w)
    ∧ get_param
      [(⟨"input_col_idx", true, (0 : Nat), id⟩ : PDecl Nat), ⟨"overwrite", false, 1, id⟩]
      [("input_col_idx", 2), ("unknown", 5)] "nosuch" = .error "undeclared"
    ∧ get_param
      [(⟨"input_col_idx", true, (0 : Nat), id⟩ : PDecl Nat), ⟨"overwrite", false, 1, id⟩]
      [("input_col_idx", 2)] "overwrite" = .ok 1 := by
  refine ⟨?_, ?_, ?_, ?_⟩
  · exact (context_param_contract
      [(⟨"input_col_idx", true, (0 : Nat), id⟩ : PDecl Nat), ⟨"overwrite", false, 1, id⟩]
      [("unknown", 5)] "nosuch").1
      ⟨⟨"input_col_idx", true, (0 : Nat), id⟩, List.mem_cons_self _ _, rfl, by decide⟩
  · exact (context_param_contract
      [(⟨"input_col_idx", true, (0 : Nat), id⟩ : PDecl Nat), ⟨"overwrite", false, 1, id⟩]
      [("input_col_idx", 2), ("unknown", 5)] "nosuch").2.1
      (fun p hp hreq => ⟨("input_col_idx", 2), List.mem_cons_self _ _, by
        rcases List.mem_cons.1 hp with rfl | hp2
        · rfl
        · rcases List.mem_cons.1 hp2 with rfl | hp3
          · exact absurd hreq (by decide)
          · exact absurd hp3 (List.not_mem_nil p)⟩)
  · exact (context_param_contract
      [(⟨"input_col_idx", true, (0 : Nat), id⟩ : PDecl Nat), ⟨"overwrite", false, 1, id⟩]
      [("input_col_idx", 2), ("unknown", 5)] "nosuch").2.2.1
      (fun p hp => by
        rcases List.mem_cons.1 hp with rfl | hp2
        · decide
        · rcases List.mem_cons.1 hp2 with rfl | hp3
          · decide
          · exact absurd hp3 (List.not_mem_nil p))
  · exact (context_param_contract
      [(⟨"input_col_idx", true, (0 : Nat), id⟩ : PDecl Nat), ⟨"overwrite", false, 1, id⟩]
      [("input_col_idx", 2)] "overwrite").2.2.2
      ⟨"overwrite", false, 1, id⟩
      (List.mem_cons_of_mem _ (List.mem_cons_self _ _))
      rfl (by decide) ⟨_, rfl⟩ (by decide)

/-! ### `Table.convert` (table.py:682-733), claim C9 -/

/-- Value held by the Python local variable `output` inside
`Table.convert`: the function parameter starts as `None` or a path, and
line 691 rebinds the same name to a `CsvOutputCollection`. -/
inductive PyOutputVar where
  | pynone
  | path (s : String)
  | coll (file : String)
deriving DecidableEq

/-- Observable outcome of `Table.convert` relevant to cleanup: the file
written to, whether a fresh temporary file was created, whether the
error path deleted it, and whether the error was re-raised. -/
structure ConvertOutcome where
  csv_out : String
  temp_created : Bool
  removed_on_error : Bool
  reraised : Bool
deriving DecidableEq

/-- Embedding of `Table.convert` (table.py:682-733).  `outputArg` is the
caller's `output` parameter, `tmpName` the name `NamedTemporaryFile`
would produce, and `fails` says whether `conv().process(context)`
raises `RuntimeError`.  Crucially, line 691 (`output =
CsvOutputCollection(csv_out)`) rebinds the local `output`, and the
error-path test `if output is None` (line 720) as well as
`is_tempfile=(output is None)` (line 715) read that rebound
variable. -/
def tableConvert (outputArg : Option String) (tmpName : String) (fails : Bool) :
    ConvertOutcome :=
  let output : PyOutputVar :=
    match outputArg with
    | none => .pynone
    | some s => .path s
  let csv_out : String :=
    match output with
    | .pynone => tmpName
    | .path s => s
    | .coll f => f
  let temp_created : Bool := outputArg.isNone
  let output : PyOutputVar := .coll csv_out
  if fails then
    { csv_out := csv_out, temp_created := temp_created,
      removed_on_error := (output = PyOutputVar.pynone : Bool),
      reraised := true }
  else
    { csv_out := csv_out, temp_created := temp_created,
      removed_on_error := false, reraised := false }

/-- C9, behavior at the failing input: with no explicit output
destination (`output=None`) and a convertor raising `RuntimeError`, the
temporary file created for the step is NOT removed on the error path —
line 691 rebinds `output` to the `CsvOutputCollection`, so the cleanup
test `if output is None` (line 720) is always false and `os.remove`
(line 721) together with its log message is dead code.  This
contradicts the claim (and the intent visible in the source's own
cleanup branch); the explicit-destination half of the claim does hold:
the caller's file is left in place and the error is re-raised. -/
theorem tableConvert_temp_not_removed :
    ((tableConvert none "/tmp/table_x" true).temp_created = true
      ∧ (tableConvert none "/tmp/table_x" true).removed_on_error = false
      ∧ (tableConvert none "/tmp/table_x" true).reraised = true)
    ∧ ((tableConvert (some "/home/user/out.csv") "/tmp/table_x" true).removed_on_error
          = false
      ∧ (tableConvert (some "/home/user/out.csv") "/tmp/table_x" true).reraised = true
      ∧ (tableConvert (some "/home/user/out.csv") "/tmp/table_x" true).csv_out
          = "/home/user/out.csv") := by
  decide

/-! ### `ItemsPair.mapping` (mapping.py:259-338), claim C6 -/

/-- Replacement done in `ItemsPair.__init__` (mapping.py:254-255):
empty header strings become `'empty'`. -/
def itemsFix (l : List String) : List String :=
  l.map (fun x => if x = "" then "empty" else x)

/-- Entry of the cost matrix built by `get_weighted_matrix`
(mapping.py:275-295): the matrix is allocated as a
`max(m,n) × max(m,n)` zero matrix and the loop fills only the
`i < m, j < n` block with `-1.0 * sim` where `sim` is the cosine
similarity clipped below at `0`; padding entries stay `0`.  The
embedding-based similarity `cos_sim(item2vec(a), item2vec(b))` comes
from an external model (`transformers`, out of scope per the spec) and
is the abstract parameter `cossim`; a cosine of real vectors is at most
`1`, which theorems take as a hypothesis. -/
def mxsimEntry (A B : List String) (cossim : String → String → ℚ)
    (i j : Nat) : ℚ :=
  if i < A.length ∧ j < B.length
  then -(max (cossim (A.getD i "") (B.getD j "")) 0)
  else 0

/-- One triple produced by `ItemsPair.mapping` (mapping.py:330-336) for
the assignment pair `(i, j)`: `items0[i] if i < len(items0) else None`,
the same for `items1[j]`, and the score `-self.mxsim[i, j]`. -/
def itemsMappingRow (items0 items1 : List String)
    (cossim : String → String → ℚ) (i j : Nat) :
    Option String × Option String × ℚ :=
  ((itemsFix items0)[i]?, (itemsFix items1)[j]?,
    -(mxsimEntry (itemsFix items0) (itemsFix items1) cossim i j))

/-- Embedding of `ItemsPair.mapping` (mapping.py:318-338).  The external
Munkres solver (`munkres` package, out of scope per the spec) returns a
minimum-cost perfect matching on the `dim × dim` matrix, i.e. one
column per row; it is the abstract parameter `σ`, and the pair list it
returns is `[(0, σ 0), (1, σ 1), ...]`. -/
def itemsMapping (items0 items1 : List String)
    (cossim : String → String → ℚ)
    (σ : Equiv.Perm (Fin (max items0.length items1.length))) :
    List (Option String × Option String × ℚ) :=
  (List.finRange (max items0.length items1.length)).map
    (fun i => itemsMappingRow items0 items1 cossim i.1 (σ i).1)

theorem itemsFix_length (l : List String) : (itemsFix l).length = l.length :=
  List.length_map l _

/-- C6: for header lists of sizes `m` and `n`, `mapping()` returns
exactly `max(m,n)` triples; every returned score lies in `[0,1]`
(given that the external cosine similarity is at most `1`); and a row
index `≥ m` yields a `None` first component with score `0`, while an
assigned column index `≥ n` yields a `None` second component with
score `0` (those positions address the zero padding of the matrix). -/
theorem itemsMapping_spec (items0 items1 : List String)
    (cossim : String → String → ℚ) (hcs : ∀ a b, cossim a b ≤ 1)
    (σ : Equiv.Perm (Fin (max items0.length items1.length))) :
    (itemsMapping items0 items1 cossim σ).length = max items0.length items1.length
    ∧ (∀ r ∈ itemsMapping items0 items1 cossim σ, 0 ≤ r.2.2 ∧ r.2.2 ≤ 1)
    ∧ ∀ i : Fin (max items0.length items1.length),
        (itemsMapping items0 items1 cossim σ)[i.1]?
            = some (itemsMappingRow items0 items1 cossim i.1 (σ i).1)
        ∧ (items0.length ≤ (i : Nat) →
            (itemsMappingRow items0 items1 cossim i.1 (σ i).1).1 = none
            ∧ (itemsMappingRow items0 items1 cossim i.1 (σ i).1).2.2 = 0)
        ∧ (items1.length ≤ (σ i).1 →
            (itemsMappingRow items0 items1 cossim i.1 (σ i).1).2.1 = none
            ∧ (itemsMappingRow items0 items1 cossim i.1 (σ i).1).2.2 = 0) := by
  refine ⟨?_, ?_, ?_⟩
  · simp [itemsMapping]
  · intro r hr
    obtain ⟨i, -, hi⟩ := List.mem_map.1 hr
    subst hi
    unfold itemsMappingRow mxsimEntry
    by_cases h : i.1 < (itemsFix items0).length ∧ (σ i).1 < (itemsFix items1).length
    · rw [if_pos h]
      constructor
      · simp only [neg_neg]
        exact le_max_right _ _
      · simp only [neg_neg, max_le_iff]
        exact ⟨hcs _ _, by norm_num⟩
    · rw [if_neg h]
      norm_num
  · intro i
    refine ⟨?_, ?_, ?_⟩
    · unfold itemsMapping
      rw [List.getElem?_map]
      have : (List.finRange (max items0.length items1.length))[(i : Nat)]? = some i := by
        rw [List.getElem?_eq_getElem (by simpa using i.isLt)]
        simp
      rw [this]
      rfl
    · intro hm
      constructor
      · unfold itemsMappingRow
        exact List.getElem?_eq_none (by simpa [itemsFix_length] using hm)
      · unfold itemsMappingRow mxsimEntry
        rw [if_neg (by rw [itemsFix_length]; omega)]
        simp
    · intro hn
      constructor
      · unfold itemsMappingRow
        exact List.getElem?_eq_none (by simpa [itemsFix_length] using hn)
      · unfold itemsMappingRow mxsimEntry
        rw [if_neg (by rw [itemsFix_length, itemsFix_length]; omega)]
        simp

/-- Witness for C6 at a concrete input: lists of sizes 2 and 3, constant
similarity `1/2`, identity assignment. -/
theorem itemsMapping_spec_witness :
    (itemsMapping ["a", "b"] ["x", "y", "z"] (fun _ _ => (1 : ℚ) / 2)
        (Equiv.refl _)).length = 3
    ∧ (∀ r ∈ itemsMapping ["a", "b"] ["x", "y", "z"] (fun _ _ => (1 : ℚ) / 2)
        (Equiv.refl _), 0 ≤ r.2.2 ∧ r.2.2 ≤ 1)
    ∧ ∀ i : Fin (max (["a", "b"] : List String).length
        (["x", "y", "z"] : List String).length),
        (itemsMapping ["a", "b"] ["x", "y", "z"] (fun _ _ => (1 : ℚ) / 2)
            (Equiv.refl _))[i.1]?
            = some (itemsMappingRow ["a", "b"] ["x", "y", "z"] (fun _ _ => (1 : ℚ) / 2)
                i.1 (Equiv.refl _ i).1)
        ∧ ((["a", "b"] : List String).length ≤ i.1 →
            (itemsMappingRow ["a", "b"] ["x", "y", "z"] (fun _ _ => (1 : ℚ) / 2)
                i.1 (Equiv.refl _ i).1).1 = none
            ∧ (itemsMappingRow ["a", "b"] ["x", "y", "z"] (fun _ _ => (1 : ℚ) / 2)
                i.1 (Equiv.refl _ i).1).2.2 = 0)
        ∧ ((["x", "y", "z"] : List String).length ≤ (Equiv.refl _ i).1 →
            (itemsMappingRow ["a", "b"] ["x", "y", "z"] (fun _ _ => (1 : ℚ) / 2)
                i.1 (Equiv.refl _ i).1).2.1 = none
            ∧ (itemsMappingRow ["a", "b"] ["x", "y", "z"] (fun _ _ => (1 : ℚ) / 2)
                i.1 (Equiv.refl _ i).1).2.2 = 0) :=
  itemsMapping_spec ["a", "b"] ["x", "y", "z"] (fun _ _ => (1 : ℚ) / 2)
    (fun _ _ => by norm_num) (Equiv.refl _)

/-! ### `InputOutputsConvertor.preproc` / `reorder`
(convertors.py:565-601, 646-671), claim C2 -/

/-- Number of entries of `l` smaller than `x` (the quantity by which the
sequential adjustment in `preproc` has decremented an index once the
entries of `l` have been processed). -/
def countLt (l : List Int) (x : Int) : Nat :=
  l.countP (fun y => y < x)

theorem countLt_nil (x : Int) : countLt [] x = 0 := rfl

theorem countLt_cons (z : Int) (tl : List Int) (x : Int) :
    countLt (z :: tl) x = countLt tl x + (if z < x then 1 else 0) := by
  simp [countLt, List.countP_cons]

theorem countLt_append (l₁ l₂ : List Int) (x : Int) :
    countLt (l₁ ++ l₂) x = countLt l₁ x + countLt l₂ x := by
  simp [countLt, List.countP_append]

theorem countLt_mono (prev : List Int) {x y : Int} (hxy : x ≤ y) :
    countLt prev x ≤ countLt prev y := by
  unfold countLt
  apply List.countP_mono_left
  intro z _ hz
  simp only [decide_eq_true_eq] at hz ⊢
  omega

theorem countLt_perm {l₁ l₂ : List Int} (h : l₁.Perm l₂) (x : Int) :
    countLt l₁ x = countLt l₂ x :=
  h.countP_eq _

theorem countLt_le_mid_strict (prev : List Int) (x y : Int) (hx : x ∉ prev) :
    countLt prev y ≤ countLt prev x
      + (prev.filter (fun z => decide (x < z) && decide (z < y))).length := by
  induction prev with
  | nil => simp [countLt]
  | cons z tl ih =>
      have hxz : x ≠ z := fun h => hx (h ▸ List.mem_cons_self z tl)
      have hxtl : x ∉ tl := fun h => hx (List.mem_cons_of_mem z h)
      have ih' := ih hxtl
      rw [countLt_cons, countLt_cons, List.filter_cons]
      by_cases h1 : (decide (x < z) && decide (z < y)) = true
      · rw [if_pos h1]
        simp only [Bool.and_eq_true, decide_eq_true_eq] at h1
        have hb1 : (if z < y then 1 else 0) = 1 := if_pos h1.2
        have hb2 : (if z < x then 1 else 0) = 0 := by
          rw [if_neg]; omega
        simp only [List.length_cons]
        omega
      · rw [if_neg h1]
        simp only [Bool.and_eq_true, decide_eq_true_eq, not_and] at h1
        by_cases h2 : z < y
        · have h3 : z < x := by
            rcases lt_trichotomy z x with h | h | h
            · exact h
            · exact absurd h.symm hxz
            · exact absurd h2 (h1 h)
          have hb1 : (if z < y then 1 else 0) = 1 := if_pos h2
          have hb2 : (if z < x then 1 else 0) = 1 := if_pos h3
          omega
        · have hb1 : (if z < y then 1 else 0) = 0 := if_neg h2
          have hb2 : (if z < x then 1 else 0) ≤ 1 := by
            by_cases h3 : z < x
            · rw [if_pos h3]
            · rw [if_neg h3]; omega
          omega

theorem countLt_le_mid_weak (prev : List Int) (x y : Int) :
    countLt prev x ≤ countLt prev y
      + (prev.filter (fun z => decide (y ≤ z) && decide (z < x))).length := by
  induction prev with
  | nil => simp [countLt]
  | cons z tl ih =>
      rw [countLt_cons, countLt_cons, List.filter_cons]
      by_cases h1 : (decide (y ≤ z) && decide (z < x)) = true
      · rw [if_pos h1]
        have hb1 : (if z < x then 1 else 0) ≤ 1 := by
          by_cases h3 : z < x
          · rw [if_pos h3]
          · rw [if_neg h3]; omega
        have hb2 : 0 ≤ (if z < y then 1 else 0) := Nat.zero_le _
        simp only [List.length_cons]
        omega
      · rw [if_neg h1]
        simp only [Bool.and_eq_true, decide_eq_true_eq, not_and] at h1
        by_cases h2 : z < x
        · have h3 : z < y := by
            by_cases h5 : y ≤ z
            · exact absurd h2 (h1 h5)
            · omega
          have hb1 : (if z < x then 1 else 0) = 1 := if_pos h2
          have hb2 : (if z < y then 1 else 0) = 1 := if_pos h3
          omega
        · have hb1 : (if z < x then 1 else 0) = 0 := if_neg h2
          have hb2 : 0 ≤ (if z < y then 1 else 0) := Nat.zero_le _
          omega

theorem nodup_filter_length_le_Ioo (prev : List Int) (hnd : prev.Nodup)
    (x y : Int) :
    (prev.filter (fun z => decide (x < z) && decide (z < y))).length
      ≤ (y - x - 1).toNat := by
  set f := prev.filter (fun z => decide (x < z) && decide (z < y)) with hf
  have hnd' : f.Nodup := hnd.filter _
  have hsub : f.toFinset ⊆ Finset.Ioo x y := by
    intro z hz
    rw [List.mem_toFinset] at hz
    have := List.of_mem_filter hz
    simp only [Bool.and_eq_true, decide_eq_true_eq] at this
    exact Finset.mem_Ioo.2 this
  calc f.length = f.toFinset.card := (List.toFinset_card_of_nodup hnd').symm
    _ ≤ (Finset.Ioo x y).card := Finset.card_le_card hsub
    _ = (y - x - 1).toNat := Int.card_Ioo x y

theorem nodup_filter_length_le_Ico (prev : List Int) (hnd : prev.Nodup)
    (x y : Int) :
    (prev.filter (fun z => decide (y ≤ z) && decide (z < x))).length
      ≤ (x - y).toNat := by
  set f := prev.filter (fun z => decide (y ≤ z) && decide (z < x)) with hf
  have hnd' : f.Nodup := hnd.filter _
  have hsub : f.toFinset ⊆ Finset.Ico y x := by
    intro z hz
    rw [List.mem_toFinset] at hz
    have := List.of_mem_filter hz
    simp only [Bool.and_eq_true, decide_eq_true_eq] at this
    exact Finset.mem_Ico.2 this
  calc f.length = f.toFinset.card := (List.toFinset_card_of_nodup hnd').symm
    _ ≤ (Finset.Ico y x).card := Finset.card_le_card hsub
    _ = (x - y).toNat := Int.card_Ico y x

/-- Order preservation of the sequential index adjustment: decrementing
each index by the number of already-processed smaller indexes preserves
strict comparisons, as long as the processed indexes are distinct and
do not contain `x`.  This is the reason `preproc`'s loop, which compares
already-adjusted values (convertors.py:594-599), computes the same
thing as the original-index-space description in the spec. -/
theorem adj_lt_iff (prev : List Int) (hnd : prev.Nodup) (x y : Int)
    (hx : x ∉ prev) :
    x - (countLt prev x : Int) < y - (countLt prev y : Int) ↔ x < y := by
  rcases lt_trichotomy x y with h | h | h
  · have hmono : countLt prev x ≤ countLt prev y := countLt_mono prev (le_of_lt h)
    have h1 := countLt_le_mid_strict prev x y hx
    have h2 := nodup_filter_length_le_Ioo prev hnd x y
    have h3 : ((y - x - 1).toNat : Int) = y - x - 1 := Int.toNat_of_nonneg (by omega)
    simp only [h, iff_true]
    omega
  · subst h
    simp
  · have hmono : countLt prev y ≤ countLt prev x := countLt_mono prev (le_of_lt h)
    have h1 := countLt_le_mid_weak prev x y
    have h2 := nodup_filter_length_le_Ico prev hnd x y
    have h3 : ((x - y).toNat : Int) = x - y := Int.toNat_of_nonneg (by omega)
    constructor
    · intro hlt
      omega
    · intro hlt
      omega

/-- Inner loop of `InputOutputsConvertor.preproc` (convertors.py:597-599):
after slot `i` with (already adjusted) index `v` is processed, every
later not-`None` index larger than `v` is decremented. -/
def adjustTail (v : Int) (l : List (Option Int)) : List (Option Int) :=
  l.map (fun d => d.map (fun y => if v < y then y - 1 else y))

/-- Outer loop of `InputOutputsConvertor.preproc` (convertors.py:588-599):
walks `del_col_indexes` front to back; `None` entries are skipped; a
not-`None` entry `v` (already adjusted by the earlier iterations)
decrements `output_col_idx` when `v` is smaller than it, then adjusts
the tail.  Returns the final `del_col_indexes` and `output_col_idx`. -/
def adjustLoopFuel : Nat → List (Option Int) → Int → List (Option Int) × Int
  | 0, l, ocid => (l, ocid)
  | _ + 1, [], ocid => ([], ocid)
  | fuel + 1, none :: rest, ocid =>
      let r := adjustLoopFuel fuel rest ocid
      (none :: r.1, r.2)
  | fuel + 1, some v :: rest, ocid =>
      let ocid2 := if v < ocid then ocid - 1 else ocid
      let r := adjustLoopFuel fuel (adjustTail v rest) ocid2
      (some v :: r.1, r.2)

/-- The loop is driven by the number of yet-unprocessed entries, which
`adjustTail` never changes; `adjustLoopFuel` makes that structural with
the remaining entry count as fuel (the `0, _ :: _` case is
unreachable). -/
def adjustLoop (l : List (Option Int)) (ocid : Int) : List (Option Int) × Int :=
  adjustLoopFuel l.length l ocid

theorem adjustTail_length (v : Int) (l : List (Option Int)) :
    (adjustTail v l).length = l.length := by
  simp [adjustTail]

theorem adjustLoop_nil (ocid : Int) : adjustLoop [] ocid = ([], ocid) := rfl

theorem adjustLoop_none (rest : List (Option Int)) (ocid : Int) :
    adjustLoop (none :: rest) ocid
      = ((none :: (adjustLoop rest ocid).1, (adjustLoop rest ocid).2)) := rfl

theorem adjustLoop_some (v : Int) (rest : List (Option Int)) (ocid : Int) :
    adjustLoop (some v :: rest) ocid
      = (some v :: (adjustLoop (adjustTail v rest) (if v < ocid then ocid - 1 else ocid)).1,
         (adjustLoop (adjustTail v rest) (if v < ocid then ocid - 1 else ocid)).2) := by
  unfold adjustLoop
  rw [adjustTail_length]
  rfl

/-- Closed form of the adjusted delete indexes: slot `i` holds its
original index minus the number of earlier-in-list original indexes
that are smaller (`prev` is the list of already-processed original
indexes). -/
def adjSpec (prev : List Int) : List Int → List (Option Int)
  | [] => []
  | x :: rest => some (x - (countLt prev x : Int)) :: adjSpec (prev ++ [x]) rest

theorem adjSpec_length (prev o : List Int) : (adjSpec prev o).length = o.length := by
  induction o generalizing prev with
  | nil => rfl
  | cons x rest ih => simp [adjSpec, ih]

/-- The sequential, adjusted-value loop of `preproc` computes the closed
form: each index is decremented by the number of earlier smaller
original indexes, and `output_col_idx` by the number of original
indexes smaller than it — for distinct indexes. -/
theorem adjustLoop_closed (o : List Int) : ∀ (prev : List Int) (O : Int),
    (prev ++ o).Nodup →
    adjustLoop (o.map (fun x => some (x - (countLt prev x : Int))))
        (O - (countLt prev O : Int))
      = (adjSpec prev o, O - (countLt (prev ++ o) O : Int)) := by
  induction o with
  | nil =>
      intro prev O _
      rw [List.map_nil, adjustLoop_nil, List.append_nil]
      rfl
  | cons x rest ih =>
      intro prev O hnd
      have hndprev : prev.Nodup := (List.nodup_append.1 hnd).1
      have hx : x ∉ prev := by
        intro hmem
        have := (List.nodup_append.1 hnd).2.2
        exact this hmem (List.mem_cons_self x rest)
      have hnd' : ((prev ++ [x]) ++ rest).Nodup := by
        rw [List.append_assoc]
        simpa using hnd
      rw [List.map_cons, adjustLoop_some]
      have htail : adjustTail (x - (countLt prev x : Int))
          (rest.map (fun y => some (y - (countLt prev y : Int))))
          = rest.map (fun y => some (y - (countLt (prev ++ [x]) y : Int))) := by
        unfold adjustTail
        rw [List.map_map]
        apply List.map_congr_left
        intro y _
        simp only [Function.comp_apply, Option.map_some']
        rw [countLt_append]
        rw [countLt_cons, countLt_nil]
        by_cases hlt : x < y
        · rw [if_pos ((adj_lt_iff prev hndprev x y hx).2 hlt), if_pos hlt]
          push_cast
          ring_nf
        · rw [if_neg (fun hc => hlt ((adj_lt_iff prev hndprev x y hx).1 hc)),
            if_neg hlt]
          push_cast
          ring_nf
      have hocid : (if x - (countLt prev x : Int) < O - (countLt prev O : Int)
            then O - (countLt prev O : Int) - 1 else O - (countLt prev O : Int))
          = O - (countLt (prev ++ [x]) O : Int) := by
        rw [countLt_append, countLt_cons, countLt_nil]
        by_cases hlt : x < O
        · rw [if_pos ((adj_lt_iff prev hndprev x O hx).2 hlt), if_pos hlt]
          push_cast
          ring_nf
        · rw [if_neg (fun hc => hlt ((adj_lt_iff prev hndprev x O hx).1 hc)),
            if_neg hlt]
          push_cast
          ring_nf
      rw [htail, hocid, ih (prev ++ [x]) O hnd']
      have hform : (prev ++ [x]) ++ rest = prev ++ x :: rest := by
        rw [List.append_assoc]
        rfl
      rw [hform]
      rfl

/-- Keep the elements of `l` whose position (offset by `i`) is not
listed in `o` — the canonical, order-independent meaning of "delete the
set of column positions `o`". -/
def keepNotInAux (o : List Int) : Nat → List α → List α
  | _, [] => []
  | i, a :: rest =>
      if (i : Int) ∈ o then keepNotInAux o (i + 1) rest
      else a :: keepNotInAux o (i + 1) rest

/-- Elements of `l` whose position is not listed in `o`. -/
def keepNotIn (l : List α) (o : List Int) : List α :=
  keepNotInAux o 0 l

theorem keepNotInAux_congr (o₁ o₂ : List Int) (l : List α) (i₁ i₂ : Nat)
    (h : ∀ j : Nat, (((i₁ : Int) + j) ∈ o₁) ↔ (((i₂ : Int) + j) ∈ o₂)) :
    keepNotInAux o₁ i₁ l = keepNotInAux o₂ i₂ l := by
  induction l generalizing i₁ i₂ with
  | nil => rfl
  | cons a rest ih =>
      have h0 : ((i₁ : Int) ∈ o₁) ↔ ((i₂ : Int) ∈ o₂) := by
        have := h 0
        simpa using this
      have hrec : keepNotInAux o₁ (i₁ + 1) rest = keepNotInAux o₂ (i₂ + 1) rest := by
        apply ih
        intro j
        have hj := h (j + 1)
        have e₁ : ((i₁ + 1 : Nat) : Int) + (j : Int) = (i₁ : Int) + ((j + 1 : Nat) : Int) := by
          push_cast
          ring
        have e₂ : ((i₂ + 1 : Nat) : Int) + (j : Int) = (i₂ : Int) + ((j + 1 : Nat) : Int) := by
          push_cast
          ring
        rw [e₁, e₂]
        exact hj
      unfold keepNotInAux
      by_cases hc : ((i₁ : Int) ∈ o₁)
      · rw [if_pos hc, if_pos (h0.1 hc), hrec]
      · rw [if_neg hc, if_neg (fun hc2 => hc (h0.2 hc2)), hrec]

/-- Deleting position `x` first and then (in shifted coordinates) the
positions of `o` is the same as deleting the positions `{x} ∪ o`. -/
theorem keepNotInAux_erase (o : List Int) (x : Nat) (l : List α) :
    ∀ i : Nat, i ≤ x → x < i + l.length → (x : Int) ∉ o →
    keepNotInAux (o.map (fun y => if (x : Int) < y then y - 1 else y)) i
        (l.eraseIdx (x - i))
      = keepNotInAux ((x : Int) :: o) i l := by
  induction l with
  | nil =>
      intro i hge hlt _
      simp only [List.length_nil, Nat.add_zero] at hlt
      omega
  | cons a rest ih =>
      intro i hge hlt hno
      by_cases hxi : x = i
      · subst hxi
        have hz : x - x = 0 := Nat.sub_self x
        rw [hz]
        have herase : (a :: rest).eraseIdx 0 = rest := rfl
        rw [herase]
        have hhead : ((x : Int) ∈ (x : Int) :: o) := List.mem_cons_self _ _
        conv_rhs => rw [keepNotInAux, if_pos hhead]
        apply keepNotInAux_congr
        intro j
        constructor
        · intro hmem
          obtain ⟨y, hy, hsh⟩ := List.mem_map.1 hmem
          rw [List.mem_cons]
          by_cases hxy : (x : Int) < y
          · rw [if_pos hxy] at hsh
            right
            have : y = ((x + 1 : Nat) : Int) + (j : Int) := by push_cast; omega
            rw [← this]
            exact hy
          · rw [if_neg hxy] at hsh
            exfalso
            have hyx : y = (x : Int) := by omega
            exact hno (hyx ▸ hy)
        · intro hmem
          rcases List.mem_cons.1 hmem with heq | hmem2
          · exfalso
            push_cast at heq
            omega
          · apply List.mem_map.2
            refine ⟨((x + 1 : Nat) : Int) + (j : Int), hmem2, ?_⟩
            rw [if_pos (by push_cast; omega)]
            push_cast
            ring
      · have hix : i < x := lt_of_le_of_ne hge (fun h => hxi h.symm)
        have hsub : x - i = (x - (i + 1)) + 1 := by omega
        rw [hsub]
        have herase : (a :: rest).eraseIdx ((x - (i + 1)) + 1)
            = a :: rest.eraseIdx (x - (i + 1)) := rfl
        rw [herase]
        have hcond : ((i : Int) ∈ o.map (fun y => if (x : Int) < y then y - 1 else y))
            ↔ ((i : Int) ∈ o) := by
          constructor
          · intro hmem
            obtain ⟨y, hy, hsh⟩ := List.mem_map.1 hmem
            by_cases hxy : (x : Int) < y
            · rw [if_pos hxy] at hsh
              exfalso
              omega
            · rw [if_neg hxy] at hsh
              rw [← hsh]
              exact hy
          · intro hmem
            apply List.mem_map.2
            exact ⟨(i : Int), hmem, by rw [if_neg (by omega)]⟩
        have hrec := ih (i + 1) (by omega) (by
          simp only [List.length_cons] at hlt
          omega) hno
        conv_lhs => rw [keepNotInAux]
        conv_rhs => rw [keepNotInAux]
        have hcond2 : ((i : Int) ∈ (x : Int) :: o) ↔ ((i : Int) ∈ o) := by
          rw [List.mem_cons]
          constructor
          · rintro (heq | hm)
            · exfalso; omega
            · exact hm
          · exact fun hm => Or.inr hm
        by_cases hc : (i : Int) ∈ o
        · rw [if_pos (hcond.2 hc), if_pos (hcond2.2 hc), hrec]
        · rw [if_neg (fun h2 => hc (hcond.1 h2)), if_neg (fun h2 => hc (hcond2.1 h2)),
            hrec]

/-- Sequential deletion pass of `InputOutputsConvertor.reorder`
(convertors.py:662-666): `del new_list[delete_idx]` for each not-`None`
adjusted index, front to back. -/
def applyDeletes (l : List α) (ds : List (Option Int)) : List α :=
  ds.foldl (fun acc d =>
    match d with
    | none => acc
    | some d => pyDelete acc d) l

theorem pyDelete_nonneg (l : List α) (i : Int) (h0 : 0 ≤ i)
    (hlen : i < (l.length : Int)) :
    pyDelete l i = l.eraseIdx i.toNat := by
  unfold pyDelete
  rw [if_pos ⟨h0, hlen⟩]

theorem shift_nodup (rest : List Int) (x : Int) (hnd : rest.Nodup)
    (hx : x ∉ rest) :
    (rest.map (fun y => if x < y then y - 1 else y)).Nodup := by
  apply List.Nodup.map_on _ hnd
  intro y₁ h₁ y₂ h₂ heq
  have hne₁ : y₁ ≠ x := fun h => hx (h ▸ h₁)
  have hne₂ : y₂ ≠ x := fun h => hx (h ▸ h₂)
  by_cases c₁ : x < y₁ <;> by_cases c₂ : x < y₂ <;>
    simp only [c₁, c₂, if_pos, if_neg, if_true, if_false] at heq <;> omega

theorem keepNotInAux_nil_set (l : List α) : ∀ i, keepNotInAux ([] : List Int) i l = l := by
  induction l with
  | nil => intro i; rfl
  | cons a rest ih =>
      intro i
      unfold keepNotInAux
      rw [if_neg (by simp)]
      rw [ih (i + 1)]

/-- The sequential deletions at the adjusted indexes delete exactly the
set of original positions: the loop of `preproc` plus the deletion pass
of `reorder` equals "keep every position not named". -/
theorem applyDeletes_adjustLoop :
    ∀ (n : Nat) (o : List Int) (l : List α) (ocid : Int), o.length = n →
    o.Nodup → (∀ x ∈ o, 0 ≤ x ∧ x < (l.length : Int)) →
    applyDeletes l ((adjustLoop (o.map some) ocid).1) = keepNotIn l o := by
  intro n
  induction n with
  | zero =>
      intro o l ocid hlen _ _
      rw [List.length_eq_zero.1 hlen, List.map_nil, adjustLoop_nil]
      unfold applyDeletes keepNotIn
      rw [List.foldl_nil, keepNotInAux_nil_set l 0]
  | succ m ih =>
      intro o l ocid hlen hnd hval
      match o with
      | x :: rest =>
          have hxval := hval x (List.mem_cons_self x rest)
          have hlenr : rest.length = m := by simpa using hlen
          have hxrest : x ∉ rest := (List.nodup_cons.1 hnd).1
          have hndrest : rest.Nodup := (List.nodup_cons.1 hnd).2
          rw [List.map_cons, adjustLoop_some]
          have htail : adjustTail x (rest.map some)
              = (rest.map (fun y => if x < y then y - 1 else y)).map some := by
            unfold adjustTail
            rw [List.map_map, List.map_map]
            apply List.map_congr_left
            intro y _
            rfl
          rw [htail]
          have hstep : applyDeletes l
              (some x :: (adjustLoop
                ((rest.map (fun y => if x < y then y - 1 else y)).map some)
                (if x < ocid then ocid - 1 else ocid)).1)
              = applyDeletes (pyDelete l x)
                ((adjustLoop
                  ((rest.map (fun y => if x < y then y - 1 else y)).map some)
                  (if x < ocid then ocid - 1 else ocid)).1) := rfl
          rw [hstep, pyDelete_nonneg l x hxval.1 hxval.2]
          have hlen' : ((l.eraseIdx x.toNat).length : Int) = (l.length : Int) - 1 := by
            rw [List.length_eraseIdx_of_lt (by omega)]
            have : 1 ≤ l.length := by omega
            omega
          have ihres := ih (rest.map (fun y => if x < y then y - 1 else y))
            (l.eraseIdx x.toNat) (if x < ocid then ocid - 1 else ocid)
            (by rw [List.length_map]; exact hlenr)
            (shift_nodup rest x hndrest hxrest)
            (by
              intro y' hy'
              obtain ⟨y, hy, hsh⟩ := List.mem_map.1 hy'
              have hyval := hval y (List.mem_cons_of_mem x hy)
              have hyne : y ≠ x := fun h => hxrest (h ▸ hy)
              rw [hlen']
              by_cases hxy : x < y
              · rw [if_pos hxy] at hsh
                omega
              · rw [if_neg hxy] at hsh
                omega)
          rw [ihres]
          unfold keepNotIn
          have hcast : ((x.toNat : Nat) : Int) = x := Int.toNat_of_nonneg hxval.1
          have herase := keepNotInAux_erase rest x.toNat l 0 (Nat.zero_le _)
            (by
              simp only [Nat.zero_add]
              omega)
            (by rw [hcast]; exact hxrest)
          simp only [Nat.sub_zero] at herase
          rw [hcast] at herase
          exact herase

/-- State carried by `InputOutputsConvertor` from `preproc` into
`process_header` / `process_record`. -/
structure IOsState where
  old_col_indexes : List (Option Int)
  del_col_indexes : List (Option Int)
  output_col_idx : Int

/-- The `old_col_indexes` computed in `preproc` (convertors.py:576-581):
for each output column name, the first index at which it occurs in the
headers (`headers.index`), or `None` for a brand-new name. -/
def oldIndexes (headers names : List String) : List (Option Int) :=
  names.map (fun n =>
    if n ∈ headers then some ((headers.indexOf n : Nat) : Int) else none)

/-- The insert position before the adjustment loop
(convertors.py:583-586): `len(headers)` when the parameter is `None` or
at least the column count, the parameter itself otherwise. -/
def ocidInit (headers : List String) (ocidArg : Option Int) : Int :=
  match ocidArg with
  | none => (headers.length : Int)
  | some i => if (headers.length : Int) ≤ i then (headers.length : Int) else i

/-- Embedding of `InputOutputsConvertor.preproc`
(convertors.py:565-601). -/
def iosPreproc (headers names : List String) (ocidArg : Option Int) : IOsState :=
  ⟨oldIndexes headers names,
   (adjustLoop (oldIndexes headers names) (ocidInit headers ocidArg)).1,
   (adjustLoop (oldIndexes headers names) (ocidInit headers ocidArg)).2⟩

/-- Embedding of `InputOutputsConvertor.reorder` (convertors.py:646-671):
sequential `del new_list[d]` for every not-`None` index, then the
insert-values block spliced in with Python slices
(`new_list[0:insert_idx] + insert_values + new_list[insert_idx:]`). -/
def iosReorder (original : List α) (delete_idxs : List (Option Int))
    (insert_idx : Int) (insert_values : List α) : List α :=
  (applyDeletes original delete_idxs).take
      (pySliceIdx (applyDeletes original delete_idxs).length insert_idx)
    ++ insert_values
    ++ (applyDeletes original delete_idxs).drop
      (pySliceIdx (applyDeletes original delete_idxs).length insert_idx)

/-- Headers produced by one `InputOutputsConvertor` run:
`process_header` (convertors.py:603-610) on the state left by
`preproc`. -/
def iosHeaderRun (headers names : List String) (ocidArg : Option Int) :
    List String :=
  iosReorder headers (iosPreproc headers names ocidArg).del_col_indexes
    (iosPreproc headers names ocidArg).output_col_idx names

/-- Original header index of each output column name, for names that all
occur in the headers. -/
def origIdx (headers names : List String) : List Int :=
  names.map (fun n => ((headers.indexOf n : Nat) : Int))

theorem oldIndexes_eq_map_some (headers names : List String)
    (hsub : ∀ n ∈ names, n ∈ headers) :
    oldIndexes headers names = (origIdx headers names).map some := by
  unfold oldIndexes origIdx
  rw [List.map_map]
  apply List.map_congr_left
  intro n hn
  simp [hsub n hn]

theorem origIdx_nodup (headers names : List String) (hn : names.Nodup)
    (hsub : ∀ n ∈ names, n ∈ headers) :
    (origIdx headers names).Nodup := by
  apply List.Nodup.map_on _ hn
  intro n₁ h₁ n₂ h₂ heq
  have : headers.indexOf n₁ = headers.indexOf n₂ := by exact_mod_cast heq
  exact (List.indexOf_inj (hsub n₁ h₁) (hsub n₂ h₂)).1 this

theorem origIdx_valid (headers names : List String)
    (hsub : ∀ n ∈ names, n ∈ headers) :
    ∀ x ∈ origIdx headers names, 0 ≤ x ∧ x < (headers.length : Int) := by
  intro x hx
  obtain ⟨n, hn, hidx⟩ := List.mem_map.1 hx
  subst hidx
  refine ⟨by positivity, ?_⟩
  exact_mod_cast List.indexOf_lt_length.2 (hsub n hn)

theorem adjSpec_getElem (o : List Int) : ∀ (prev : List Int) (i : Nat),
    i < o.length →
    (adjSpec prev o)[i]?
      = some (some (o.getD i 0
          - (countLt (prev ++ o.take i) (o.getD i 0) : Int))) := by
  induction o with
  | nil =>
      intro prev i hi
      simp at hi
  | cons x rest ih =>
      intro prev i hi
      match i with
      | 0 => simp [adjSpec]
      | i + 1 =>
          have hrec := ih (prev ++ [x]) i (by simpa using hi)
          unfold adjSpec
          rw [List.getElem?_cons_succ, hrec]
          have h1 : (x :: rest).getD (i + 1) 0 = rest.getD i 0 := rfl
          have h2 : (prev ++ [x]) ++ rest.take i = prev ++ (x :: rest).take (i + 1) := by
            rw [List.append_assoc]
            rfl
          rw [h1, h2]

theorem adjustLoop_spec (headers names : List String) (ocidArg : Option Int)
    (hn : names.Nodup) (hsub : ∀ n ∈ names, n ∈ headers) :
    adjustLoop (oldIndexes headers names) (ocidInit headers ocidArg)
      = (adjSpec [] (origIdx headers names),
         ocidInit headers ocidArg
           - (countLt (origIdx headers names) (ocidInit headers ocidArg) : Int)) := by
  rw [oldIndexes_eq_map_some headers names hsub]
  have hnd : (([] : List Int) ++ origIdx headers names).Nodup := by
    simpa using origIdx_nodup headers names hn hsub
  have hc := adjustLoop_closed (origIdx headers names) [] (ocidInit headers ocidArg) hnd
  have hmap : (origIdx headers names).map
      (fun x => some (x - (countLt [] x : Int))) = (origIdx headers names).map some := by
    apply List.map_congr_left
    intro y _
    rw [countLt_nil]
    simp
  rw [hmap, countLt_nil] at hc
  simpa using hc

/-- C2 counterexample: running the convertor with the output names
listed in a different (permuted) order does NOT yield the same final
header list: with headers `["a", "b"]` and output names equal to the
headers, the list order `["a", "b"]` produces final headers
`["a", "b"]` while the permutation `["b", "a"]` produces `["b", "a"]` —
the deleted set is the same but the re-inserted block follows the
given list order. -/
theorem iosHeaderRun_not_permutation_invariant :
    (["b", "a"] : List String).Perm ["a", "b"]
    ∧ iosHeaderRun ["a", "b"] ["b", "a"] none
        ≠ iosHeaderRun ["a", "b"] ["a", "b"] none := by
  constructor
  · decide
  · decide

/-- C2 (amended): with distinct output names that all occur among the
headers, (1) the effective delete index computed by `preproc` for slot
`i` equals that slot's original header index minus the number of
earlier-in-list slots whose original index was smaller; and (2) the
result of the run is the order-independent part — the surviving columns
(every position not named) and the adjusted insert position — with the
output names spliced in as a block in the given list order; hence a
permutation of the names yields the same survivors and position and
differs only in the order of the inserted block (not, as claimed, the
identical final header list). -/
theorem iosPreproc_formula_and_order_invariance
    (headers names names' : List String) (ocidArg : Option Int)
    (hn : names.Nodup) (hsub : ∀ n ∈ names, n ∈ headers)
    (hperm : names'.Perm names) :
    (∀ i, i < names.length →
        (iosPreproc headers names ocidArg).del_col_indexes[i]?
          = some (some ((origIdx headers names).getD i 0
              - (countLt ((origIdx headers names).take i)
                  ((origIdx headers names).getD i 0) : Int))))
    ∧ iosHeaderRun headers names ocidArg
        = (keepNotIn headers (origIdx headers names)).take
            (pySliceIdx (keepNotIn headers (origIdx headers names)).length
              (ocidInit headers ocidArg
                - (countLt (origIdx headers names) (ocidInit headers ocidArg) : Int)))
          ++ names
          ++ (keepNotIn headers (origIdx headers names)).drop
            (pySliceIdx (keepNotIn headers (origIdx headers names)).length
              (ocidInit headers ocidArg
                - (countLt (origIdx headers names) (ocidInit headers ocidArg) : Int)))
    ∧ iosHeaderRun headers names' ocidArg
        = (keepNotIn headers (origIdx headers names)).take
            (pySliceIdx (keepNotIn headers (origIdx headers names)).length
              (ocidInit headers ocidArg
                - (countLt (origIdx headers names) (ocidInit headers ocidArg) : Int)))
          ++ names'
          ++ (keepNotIn headers (origIdx headers names)).drop
            (pySliceIdx (keepNotIn headers (origIdx headers names)).length
              (ocidInit headers ocidArg
                - (countLt (origIdx headers names) (ocidInit headers ocidArg) : Int))) := by
  have hrun : ∀ (ns : List String), ns.Nodup → (∀ n ∈ ns, n ∈ headers) →
      iosHeaderRun headers ns ocidArg
        = (keepNotIn headers (origIdx headers ns)).take
            (pySliceIdx (keepNotIn headers (origIdx headers ns)).length
              (ocidInit headers ocidArg
                - (countLt (origIdx headers ns) (ocidInit headers ocidArg) : Int)))
          ++ ns
          ++ (keepNotIn headers (origIdx headers ns)).drop
            (pySliceIdx (keepNotIn headers (origIdx headers ns)).length
              (ocidInit headers ocidArg
                - (countLt (origIdx headers ns) (ocidInit headers ocidArg) : Int))) := by
    intro ns hnd hsb
    have hdel : applyDeletes headers (iosPreproc headers ns ocidArg).del_col_indexes
        = keepNotIn headers (origIdx headers ns) := by
      show applyDeletes headers
          (adjustLoop (oldIndexes headers ns) (ocidInit headers ocidArg)).1
        = keepNotIn headers (origIdx headers ns)
      rw [oldIndexes_eq_map_some headers ns hsb]
      exact applyDeletes_adjustLoop (origIdx headers ns).length (origIdx headers ns)
        headers (ocidInit headers ocidArg) rfl
        (origIdx_nodup headers ns hnd hsb) (origIdx_valid headers ns hsb)
    have hocid : (iosPreproc headers ns ocidArg).output_col_idx
        = ocidInit headers ocidArg
          - (countLt (origIdx headers ns) (ocidInit headers ocidArg) : Int) := by
      show (adjustLoop (oldIndexes headers ns) (ocidInit headers ocidArg)).2 = _
      rw [adjustLoop_spec headers ns ocidArg hnd hsb]
    unfold iosHeaderRun iosReorder
    rw [hdel, hocid]
  have hsub' : ∀ n ∈ names', n ∈ headers := fun n hn2 => hsub n (hperm.mem_iff.1 hn2)
  have hn' : names'.Nodup := (hperm.nodup_iff).2 hn
  have hpermIdx : (origIdx headers names').Perm (origIdx headers names) :=
    hperm.map _
  have hkeep : keepNotIn headers (origIdx headers names')
      = keepNotIn headers (origIdx headers names) := by
    unfold keepNotIn
    apply keepNotInAux_congr
    intro j
    exact ⟨fun h => hpermIdx.mem_iff.1 h, fun h => hpermIdx.mem_iff.2 h⟩
  have hcount : countLt (origIdx headers names') (ocidInit headers ocidArg)
      = countLt (origIdx headers names) (ocidInit headers ocidArg) :=
    countLt_perm hpermIdx _
  refine ⟨?_, hrun names hn hsub, ?_⟩
  · intro i hi
    have hdels : (iosPreproc headers names ocidArg).del_col_indexes
        = adjSpec [] (origIdx headers names) := by
      show (adjustLoop (oldIndexes headers names) (ocidInit headers ocidArg)).1 = _
      rw [adjustLoop_spec headers names ocidArg hn hsub]
    rw [hdels]
    have := adjSpec_getElem (origIdx headers names) [] i
      (by rw [origIdx, List.length_map]; exact hi)
    simpa using this
  · rw [hrun names' hn' hsub', hkeep, hcount]

/-- Witness for C2 (amended) at a concrete input: headers
`["a", "b", "c"]`, output names `["c", "a"]` and the permutation
`["a", "c"]`, default insert position. -/
theorem iosPreproc_formula_and_order_invariance_witness :
    ((∀ i, i < (["c", "a"] : List String).length →
        (iosPreproc ["a", "b", "c"] ["c", "a"] none).del_col_indexes[i]?
          = some (some ((origIdx ["a", "b", "c"] ["c", "a"]).getD i 0
              - (countLt ((origIdx ["a", "b", "c"] ["c", "a"]).take i)
                  ((origIdx ["a", "b", "c"] ["c", "a"]).getD i 0) : Int))))
    ∧ iosHeaderRun ["a", "b", "c"] ["c", "a"] none
        = (keepNotIn ["a", "b", "c"] (origIdx ["a", "b", "c"] ["c", "a"])).take
            (pySliceIdx (keepNotIn ["a", "b", "c"]
                (origIdx ["a", "b", "c"] ["c", "a"])).length
              (ocidInit ["a", "b", "c"] none
                - (countLt (origIdx ["a", "b", "c"] ["c", "a"])
                    (ocidInit ["a", "b", "c"] none) : Int)))
          ++ ["c", "a"]
          ++ (keepNotIn ["a", "b", "c"] (origIdx ["a", "b", "c"] ["c", "a"])).drop
            (pySliceIdx (keepNotIn ["a", "b", "c"]
                (origIdx ["a", "b", "c"] ["c", "a"])).length
              (ocidInit ["a", "b", "c"] none
                - (countLt (origIdx ["a", "b", "c"] ["c", "a"])
                    (ocidInit ["a", "b", "c"] none) : Int)))
    ∧ iosHeaderRun ["a", "b", "c"] ["a", "c"] none
        = (keepNotIn ["a", "b", "c"] (origIdx ["a", "b", "c"] ["c", "a"])).take
            (pySliceIdx (keepNotIn ["a", "b", "c"]
                (origIdx ["a", "b", "c"] ["c", "a"])).length
              (ocidInit ["a", "b", "c"] none
                - (countLt (origIdx ["a", "b", "c"] ["c", "a"])
                    (ocidInit ["a", "b", "c"] none) : Int)))
          ++ ["a", "c"]
          ++ (keepNotIn ["a", "b", "c"] (origIdx ["a", "b", "c"] ["c", "a"])).drop
            (pySliceIdx (keepNotIn ["a", "b", "c"]
                (origIdx ["a", "b", "c"] ["c", "a"])).length
              (ocidInit ["a", "b", "c"] none
                - (countLt (origIdx ["a", "b", "c"] ["c", "a"])
                    (ocidInit ["a", "b", "c"] none) : Int)))) :=
  iosPreproc_formula_and_order_invariance ["a", "b", "c"] ["c", "a"] ["a", "c"]
    none (by decide) (by decide) (by decide)

/-! ### Excel-serial branch of `get_datetime`
(date_extractor.py:22, 350-351, 502-524), claim C7 -/

/-- Optional fractional part of the `excel_date` regex
(`(?:\.\d*)?`): nothing, or a dot followed by any number of digits. -/
def fracOk : List Char → Bool
  | [] => true
  | c :: frac => c == '.' && frac.all Char.isDigit

/-- Full match of the `excel_date` pattern `[34]\d{4}(?:\.\d*)?`
(date_extractor.py:22): a five-digit number starting with `3` or `4`,
optionally followed by a fractional part. -/
def matchesExcelDate (s : String) : Bool :=
  match s.data with
  | [] => false
  | c :: rest =>
      (c == '3' || c == '4') && ((rest.take 4).length == 4)
        && (rest.take 4).all Char.isDigit && fracOk (rest.drop 4)

/-- Numeric value of a digit string. -/
def natOfDigits (ds : List Char) : Nat :=
  ds.foldl (fun a c => 10 * a + (c.toNat - '0'.toNat)) 0

/-- Python `float(text)` for a string matching the `excel_date` pattern,
modelled as the exact decimal rational (the binary-float rounding of
CPython, below a microsecond for five-digit serials, is idealized
away). -/
def parseSerial (s : String) : ℚ :=
  (natOfDigits (s.data.takeWhile (fun c => ¬ (c = '.'))) : ℚ)
    + (natOfDigits ((s.data.dropWhile (fun c => ¬ (c = '.'))).drop 1) : ℚ)
      / (10 : ℚ) ^ ((s.data.dropWhile (fun c => ¬ (c = '.'))).drop 1).length

/-- Proleptic-Gregorian date from a day count since 1970-01-01 (the
standard era-based civil-from-days computation, the arithmetic a
correct date library such as Python's `datetime` performs). -/
def civilFromDays (z : Nat) : Nat × Nat × Nat :=
  let z2 := z + 719468
  let era := z2 / 146097
  let doe := z2 % 146097
  let yoe := (doe - doe / 1460 + doe / 36524 - doe / 146096) / 365
  let y := yoe + era * 400
  let doy := doe - (365 * yoe + yoe / 4 - yoe / 100)
  let mp := (5 * doy + 2) / 153
  let d := doy - (153 * mp + 2) / 5 + 1
  let m := if mp < 10 then mp + 3 else mp - 9
  (if m ≤ 2 then y + 1 else y, m, d)

/-- Fields of a Python `datetime` value. -/
structure PyDateTime where
  year : Nat
  month : Nat
  day : Nat
  hour : Nat
  minute : Nat
  second : Nat
deriving DecidableEq

/-- Embedding of `convert_excel_date` (date_extractor.py:350-351):
`datetime(1899, 12, 30) + timedelta(days=num)`.  `timedelta` resolves
the day count to microseconds (rounding the fraction to a whole number
of microseconds; Python rounds half to even, `round` here half up —
they agree everywhere except exactly half a microsecond); 1899-12-30
is 25569 days before 1970-01-01. -/
def convert_excel_date (q : ℚ) : PyDateTime :=
  ⟨(civilFromDays ((round (q * 86400000000) : Int).toNat / 86400000000 - 25569)).1,
   (civilFromDays ((round (q * 86400000000) : Int).toNat / 86400000000 - 25569)).2.1,
   (civilFromDays ((round (q * 86400000000) : Int).toNat / 86400000000 - 25569)).2.2,
   ((round (q * 86400000000) : Int).toNat % 86400000000) / 3600000000,
   ((round (q * 86400000000) : Int).toNat % 86400000000) % 3600000000 / 60000000,
   ((round (q * 86400000000) : Int).toNat % 86400000000) % 60000000 / 1000000⟩

/-- Result of `get_datetime` (date_extractor.py:502-564): candidate
field tuples, the matched text, and the classification tag. -/
structure DtResult where
  datetime : List (List Int)
  text : String
  format : String

/-- The integer field list `[year, month, day, hour, minute, second]`
built in the `EXCEL_DATE` branch (date_extractor.py:513-521). -/
def dtFields (c : PyDateTime) : List Int :=
  [(c.year : Int), (c.month : Int), (c.day : Int), (c.hour : Int),
   (c.minute : Int), (c.second : Int)]

/-- Embedding of `get_datetime` from the `re.fullmatch(excel_date,
text)` test on (date_extractor.py:510-524).  `text` is the already
normalized string (`convert_string`, URL replacement and whitespace
removal have been applied); the `SPAN`/`DATETIME`/`NOT_DATETIME` search
that runs when the Excel pattern does not match is the abstract
parameter `rest`. -/
def getDatetimeExcel (rest : String → DtResult) (text : String) : DtResult :=
  if matchesExcelDate text then
    { datetime := [dtFields (convert_excel_date (parseSerial text))],
      text := text, format := "EXCEL_DATE" }
  else rest text

/-- C7: a normalized string that fully matches the Excel-serial pattern
(five digits starting with 3 or 4, optional fractional part) is
classified `EXCEL_DATE` with exactly one candidate, equal to
1899-12-30 plus that many days (`convert_excel_date` of the parsed
serial); and when the string has no fractional part the candidate's
hour, minute and second are all 0. -/
theorem getDatetime_excel_spec (rest : String → DtResult) (text : String)
    (hm : matchesExcelDate text = true) :
    (getDatetimeExcel rest text).format = "EXCEL_DATE"
    ∧ (getDatetimeExcel rest text).datetime
        = [dtFields (convert_excel_date (parseSerial text))]
    ∧ (getDatetimeExcel rest text).datetime.length = 1
    ∧ ('.' ∉ text.data →
        (convert_excel_date (parseSerial text)).hour = 0
        ∧ (convert_excel_date (parseSerial text)).minute = 0
        ∧ (convert_excel_date (parseSerial text)).second = 0) := by
  refine ⟨?_, ?_, ?_, ?_⟩
  · unfold getDatetimeExcel
    rw [if_pos hm]
  · unfold getDatetimeExcel
    rw [if_pos hm]
  · unfold getDatetimeExcel
    rw [if_pos hm]
    rfl
  · intro hdot
    have hfp : (text.data.dropWhile (fun c => ¬ (c = '.'))).drop 1 = [] := by
      have hdw : text.data.dropWhile (fun c => ¬ (c = '.')) = [] := by
        rw [List.dropWhile_eq_nil_iff]
        intro x hx
        simp only [decide_not, Bool.not_eq_true', decide_eq_false_iff_not]
        exact fun hc => hdot (hc ▸ hx)
      rw [hdw]
      rfl
    have hq : parseSerial text
        = ((natOfDigits (text.data.takeWhile (fun c => ¬ (c = '.'))) : Nat) : ℚ) := by
      unfold parseSerial
      rw [hfp]
      norm_num [natOfDigits]
    set n := natOfDigits (text.data.takeWhile (fun c => ¬ (c = '.'))) with hn
    have hround : (round ((parseSerial text) * 86400000000) : Int)
        = ((n * 86400000000 : Nat) : Int) := by
      rw [hq]
      have : ((n : ℚ) * 86400000000) = ((n * 86400000000 : Nat) : ℚ) := by
        push_cast
        ring
      rw [this, round_natCast]
    have hus : (round ((parseSerial text) * 86400000000) : Int).toNat
        = n * 86400000000 := by
      rw [hround]
      exact Int.toNat_natCast _
    refine ⟨?_, ?_, ?_⟩
    · show ((round ((parseSerial text) * 86400000000) : Int).toNat % 86400000000)
          / 3600000000 = 0
      rw [hus, Nat.mul_mod_left]
    · show ((round ((parseSerial text) * 86400000000) : Int).toNat % 86400000000)
          % 3600000000 / 60000000 = 0
      rw [hus, Nat.mul_mod_left]
    · show (((round ((parseSerial text) * 86400000000) : Int).toNat % 86400000000)
          % 60000000) / 1000000 = 0
      rw [hus, Nat.mul_mod_left]

/-- Witness for C7 at the concrete serial `"44197"` (2021-01-01),
including the evaluated candidate. -/
theorem getDatetime_excel_spec_witness :
    ((getDatetimeExcel (fun t => ⟨[], t, "NOT_DATETIME"⟩) "44197").format
        = "EXCEL_DATE"
    ∧ (getDatetimeExcel (fun t => ⟨[], t, "NOT_DATETIME"⟩) "44197").datetime
        = [dtFields (convert_excel_date (parseSerial "44197"))]
    ∧ (getDatetimeExcel (fun t => ⟨[], t, "NOT_DATETIME"⟩) "44197").datetime.length = 1
    ∧ ('.' ∉ "44197".data →
        (convert_excel_date (parseSerial "44197")).hour = 0
        ∧ (convert_excel_date (parseSerial "44197")).minute = 0
        ∧ (convert_excel_date (parseSerial "44197")).second = 0))
    ∧ dtFields (convert_excel_date (parseSerial "44197"))
        = [2021, 1, 1, 0, 0, 0] := by
  constructor
  · exact getDatetime_excel_spec (fun t => ⟨[], t, "NOT_DATETIME"⟩) "44197"
      (by decide)
  · have hp : parseSerial "44197" = ((44197 : Nat) : ℚ) := by
      unfold parseSerial
      have h1 : natOfDigits ("44197".data.takeWhile (fun c => ¬ (c = '.'))) = 44197 := by
        decide
      have h2 : ("44197".data.dropWhile (fun c => ¬ (c = '.'))).drop 1 = [] := by
        decide
      rw [h1, h2]
      norm_num [natOfDigits]
    have h3 : (round (((44197 : Nat) : ℚ) * 86400000000) : Int)
        = ((3818620800000000 : Nat) : Int) := by
      have he : (((44197 : Nat) : ℚ) * 86400000000) = ((3818620800000000 : Nat) : ℚ) := by
        push_cast
        norm_num
      rw [he, round_natCast]
    rw [hp]
    unfold convert_excel_date dtFields
    rw [h3, Int.toNat_natCast]
    decide

/-! ### `convert_year` (date_extractor.py:335-347, 362-373), claim C8 -/

/-- Python `str.replace(pat, rep)`: replaces every non-overlapping
occurrence, scanning left to right.  (Python's empty-pattern behavior,
inserting `rep` between characters, never arises here: every pattern
used is non-empty.) -/
def replaceAll (pat rep : List Char) : List Char → List Char
  | [] => []
  | c :: rest =>
      if h : pat ≠ [] ∧ pat.isPrefixOf (c :: rest) then
        rep ++ replaceAll pat rep ((c :: rest).drop pat.length)
      else
        c :: replaceAll pat rep rest
  termination_by s => s.length
  decreasing_by
    · have hlen : 1 ≤ pat.length := by
        cases pat with
        | nil => exact absurd rfl h.1
        | cons p ps => simp
      simp only [List.length_drop, List.length_cons]
      omega
    · simp

theorem replaceAll_nil (pat rep : List Char) : replaceAll pat rep [] = [] := by
  rw [replaceAll.eq_def]

theorem replaceAll_cons_pos (pat rep : List Char) (c : Char) (rest : List Char)
    (h : pat ≠ [] ∧ pat.isPrefixOf (c :: rest)) :
    replaceAll pat rep (c :: rest)
      = rep ++ replaceAll pat rep ((c :: rest).drop pat.length) := by
  rw [replaceAll.eq_def]
  simp only [dif_pos h]

theorem replaceAll_cons_neg (pat rep : List Char) (c : Char) (rest : List Char)
    (h : ¬ (pat ≠ [] ∧ pat.isPrefixOf (c :: rest))) :
    replaceAll pat rep (c :: rest) = c :: replaceAll pat rep rest := by
  rw [replaceAll.eq_def]
  simp only [dif_neg h]

/-- Python `pat in s` (substring containment). -/
def containsSub : List Char → List Char → Bool
  | [], pat => pat.isEmpty
  | c :: rest, pat => pat.isPrefixOf (c :: rest) || containsSub rest pat

theorem containsSub_iff (s pat : List Char) :
    containsSub s pat = true ↔ pat <:+: s := by
  induction s with
  | nil =>
      unfold containsSub
      rw [List.isEmpty_iff]
      constructor
      · intro h
        rw [h]
      · intro h
        exact List.eq_nil_of_infix_nil h
  | cons c rest ih =>
      unfold containsSub
      rw [Bool.or_eq_true, List.isPrefixOf_iff_prefix, ih]
      exact (List.infix_cons_iff).symm

theorem mem_iff_singleton_contig (a : Char) (s : List Char) :
    a ∈ s ↔ [a] <:+: s := by
  constructor
  · intro h
    obtain ⟨l₁, l₂, hsplit⟩ := List.append_of_mem h
    exact ⟨l₁, l₂, by simp [hsplit]⟩
  · intro h
    exact h.subset (List.mem_singleton_self a)

theorem containsSub_single (s : List Char) (a : Char) :
    containsSub s [a] = true ↔ a ∈ s := by
  rw [containsSub_iff]
  exact (mem_iff_singleton_contig a s).symm

theorem containsSub_single_false (s : List Char) (a : Char) (h : a ∉ s) :
    containsSub s [a] = false := by
  rw [Bool.eq_false_iff]
  intro hc
  exact h ((containsSub_single s a).1 hc)

/-- Python `str.strip()`: whitespace removed from both ends. -/
def pyStrip (s : List Char) : List Char :=
  ((s.dropWhile Char.isWhitespace).reverse.dropWhile Char.isWhitespace).reverse

/-- Python `int(s)` on the shapes that occur here (optional sign and
decimal digits after stripping whitespace); `none` models the
`ValueError`. -/
def pyInt (s : List Char) : Option Int :=
  match pyStrip s with
  | [] => none
  | c :: ds =>
      if c = '-' then
        (if ¬ ds.isEmpty ∧ ds.all Char.isDigit then some (-(natOfDigits ds : Int))
         else none)
      else if c = '+' then
        (if ¬ ds.isEmpty ∧ ds.all Char.isDigit then some ((natOfDigits ds : Int))
         else none)
      else if (c :: ds).all Char.isDigit then some ((natOfDigits (c :: ds) : Int))
      else none

/-- The era dictionary `year_dic` (date_extractor.py:335-347): base
Gregorian year per era initial, kanji forms first, Latin letters
second, in source order. -/
def year_dic : List (List Char × Int) :=
  [(['令'], 2018), (['平'], 1988), (['昭'], 1925), (['大'], 1911), (['明'], 1867),
   (['R'], 2018), (['H'], 1988), (['S'], 1925), (['T'], 1911), (['M'], 1867)]

/-- Value or exception of a Python function that may return an `int`, a
`str`, or raise `ValueError` (from a failing `int(...)`). -/
inductive PyStrOrInt where
  | int (n : Int)
  | str (s : List Char)
  | exn
deriving DecidableEq

/-- Body of the era branch of `convert_year` (date_extractor.py:364-368):
`v + int(y.replace(k, "").replace("年度", "").replace("年", "").replace("元", "1"))`. -/
def eraResult (y k : List Char) (v : Int) : PyStrOrInt :=
  match pyInt (replaceAll ['元'] ['1']
      (replaceAll ['年'] []
        (replaceAll ['年', '度'] []
          (replaceAll k [] y)))) with
  | some n => .int (v + n)
  | none => .exn

/-- The `for k, v in year_dic.items()` loop of `convert_year`
(date_extractor.py:363-368): the first key contained in `y` wins. -/
def convertYearEra (y : List Char) : List (List Char × Int) → Option PyStrOrInt
  | [] => none
  | (k, v) :: rest =>
      if containsSub y k then some (eraResult y k v)
      else convertYearEra y rest

/-- Embedding of `convert_year` (date_extractor.py:362-373). -/
def convert_year (y : List Char) : PyStrOrInt :=
  match convertYearEra y year_dic with
  | some r => r
  | none =>
      match pyInt (replaceAll ['年'] [] (replaceAll ['年', '度'] [] y)) with
      | some n => .int n
      | none => .str y

theorem convertYearEra_first_hit (y : List Char) :
    ∀ (dic : List (List Char × Int)) (k : List Char) (v : Int),
    (k, v) ∈ dic → containsSub y k = true →
    (∀ p ∈ dic, p ≠ (k, v) → containsSub y p.1 = false) →
    convertYearEra y dic = some (eraResult y k v) := by
  intro dic
  induction dic with
  | nil =>
      intro k v hmem _ _
      exact absurd hmem (List.not_mem_nil _)
  | cons p rest ih =>
      intro k v hmem hhit hothers
      obtain ⟨k₀, v₀⟩ := p
      by_cases heq : (k₀, v₀) = (k, v)
      · obtain ⟨hk, hv⟩ := Prod.mk.injEq _ _ _ _ ▸ heq
        subst hk
        subst hv
        unfold convertYearEra
        rw [if_pos hhit]
      · have hskip : containsSub y k₀ = false :=
          hothers (k₀, v₀) (List.mem_cons_self _ _) heq
        unfold convertYearEra
        rw [hskip]
        simp only [Bool.false_eq_true, if_false]
        have hmem' : (k, v) ∈ rest := by
          rcases List.mem_cons.1 hmem with h | h
          · exact absurd h.symm heq
          · exact h
        exact ih k v hmem' hhit
          (fun p hp hne => hothers p (List.mem_cons_of_mem _ hp) hne)

theorem replaceAll_no_match (pat rep : List Char) (s : List Char)
    (h : ¬ pat <:+: s) : replaceAll pat rep s = s := by
  induction s with
  | nil => exact replaceAll_nil pat rep
  | cons c rest ih =>
      have hnp : ¬ (pat ≠ [] ∧ pat.isPrefixOf (c :: rest) = true) := by
        rintro ⟨-, hpre⟩
        exact h ((List.isPrefixOf_iff_prefix.1 hpre).isInfix)
      rw [replaceAll_cons_neg pat rep c rest hnp]
      rw [ih (fun hinf => h (List.infix_cons_iff.2 (Or.inr hinf)))]

theorem replaceAll_single_del (a : Char) (s : List Char) :
    replaceAll [a] [] s = s.filter (fun c => ¬ (c = a)) := by
  induction s with
  | nil => exact replaceAll_nil [a] []
  | cons c rest ih =>
      by_cases hca : c = a
      · subst hca
        have hp : ([c] : List Char) ≠ [] ∧ ([c] : List Char).isPrefixOf (c :: rest) = true := by
          refine ⟨by simp, ?_⟩
          simp [List.isPrefixOf_iff_prefix]
        rw [replaceAll_cons_pos [c] [] c rest hp]
        simp only [List.length_cons, List.length_nil, Nat.zero_add, List.drop_succ_cons,
          List.drop_zero, List.nil_append]
        rw [ih]
        simp [List.filter_cons]
      · have hnp : ¬ (([a] : List Char) ≠ [] ∧ ([a] : List Char).isPrefixOf (c :: rest) = true) := by
          rintro ⟨-, hpre⟩
          rcases List.isPrefixOf_iff_prefix.1 hpre with ⟨t, ht⟩
          have : a = c := by
            have := congrArg (fun l => l.head?) ht
            simpa using this
          exact hca this.symm
        rw [replaceAll_cons_neg [a] [] c rest hnp, ih]
        simp [List.filter_cons, hca]

theorem replaceAll_append_no_head (p₀ : Char) (pat' rep : List Char) :
    ∀ (xs s : List Char), p₀ ∉ xs →
    replaceAll (p₀ :: pat') rep (xs ++ s) = xs ++ replaceAll (p₀ :: pat') rep s := by
  intro xs
  induction xs with
  | nil =>
      intro s _
      simp
  | cons c xs' ih =>
      intro s hmem
      have hne : p₀ ≠ c := fun h => hmem (h ▸ List.mem_cons_self c xs')
      have hnp : ¬ ((p₀ :: pat') ≠ [] ∧ (p₀ :: pat').isPrefixOf (c :: (xs' ++ s)) = true) := by
        rintro ⟨-, hpre⟩
        rcases List.isPrefixOf_iff_prefix.1 hpre with ⟨t, ht⟩
        have : p₀ = c := by
          have := congrArg (fun l => l.head?) ht
          simpa using this
        exact hne this
      rw [List.cons_append, replaceAll_cons_neg _ rep c (xs' ++ s) hnp,
        ih s (fun h => hmem (List.mem_cons_of_mem c h))]
      rfl

theorem replaceAll_self (pat rep : List Char) (hne : pat ≠ []) :
    replaceAll pat rep pat = rep := by
  match pat with
  | [] => exact absurd rfl hne
  | p₀ :: pat' =>
      have hp : (p₀ :: pat') ≠ [] ∧ (p₀ :: pat').isPrefixOf (p₀ :: pat') = true := by
        refine ⟨hne, ?_⟩
        rw [List.isPrefixOf_iff_prefix]
      rw [replaceAll_cons_pos _ rep p₀ pat' hp]
      rw [List.drop_length]
      rw [replaceAll_nil]
      simp

theorem isDigit_ne_of (c d : Char) (h : c.isDigit = true) (hd : d.isDigit = false) :
    c ≠ d := by
  intro hc
  rw [hc, hd] at h
  exact Bool.false_ne_true h

theorem isDigit_not_whitespace (c : Char) (h : c.isDigit = true) :
    c.isWhitespace = false := by
  unfold Char.isWhitespace
  rw [decide_eq_false (isDigit_ne_of c ' ' h (by decide)),
    decide_eq_false (isDigit_ne_of c '\t' h (by decide)),
    decide_eq_false (isDigit_ne_of c '\r' h (by decide)),
    decide_eq_false (isDigit_ne_of c '\n' h (by decide))]
  rfl

theorem dropWhile_ws_replicate (n : Nat) (l : List Char) :
    (List.replicate n ' ' ++ l).dropWhile Char.isWhitespace
      = l.dropWhile Char.isWhitespace := by
  induction n with
  | zero => rfl
  | succ m ih =>
      rw [List.replicate_succ, List.cons_append, List.dropWhile_cons_of_pos (by decide)]
      exact ih

theorem dropWhile_ws_digits (l : List Char) (h : ∀ x ∈ l, x.isDigit = true) :
    l.dropWhile Char.isWhitespace = l := by
  cases l with
  | nil => rfl
  | cons c rest =>
      rw [List.dropWhile_cons_of_neg]
      rw [isDigit_not_whitespace c (h c (List.mem_cons_self c rest))]
      exact Bool.false_ne_true

theorem pyStrip_spaces_digits (nsp : Nat) (dg : List Char)
    (hdigits : ∀ x ∈ dg, x.isDigit = true) :
    pyStrip (List.replicate nsp ' ' ++ dg) = dg := by
  unfold pyStrip
  rw [dropWhile_ws_replicate nsp dg, dropWhile_ws_digits dg hdigits,
    dropWhile_ws_digits dg.reverse (fun x hx => hdigits x (List.mem_reverse.1 hx)),
    List.reverse_reverse]

theorem pyInt_spaces_digits (nsp : Nat) (dg : List Char) (hdg : dg ≠ [])
    (hdigits : ∀ x ∈ dg, x.isDigit = true) :
    pyInt (List.replicate nsp ' ' ++ dg) = some ((natOfDigits dg : Int)) := by
  unfold pyInt
  rw [pyStrip_spaces_digits nsp dg hdigits]
  match dg, hdg with
  | d₀ :: tl, _ =>
      have hd₀ : d₀.isDigit = true := hdigits d₀ (List.mem_cons_self d₀ tl)
      simp only [if_neg (isDigit_ne_of d₀ '-' hd₀ (by decide)),
        if_neg (isDigit_ne_of d₀ '+' hd₀ (by decide)),
        if_pos (List.all_eq_true.2 (fun x hx => hdigits x hx))]

/-- Characters that may occur in an era-relative year string for era
initial `c`: the initial itself, digits, the space of the `" \d"` form,
and the suffixes `年`, `年度`, `元`. -/
def eraCharOk (c x : Char) : Prop :=
  x = c ∨ x.isDigit = true ∨ x = ' ' ∨ x = '年' ∨ x = '度' ∨ x = '元'

theorem not_containsSub_of_allOk (y : List Char) (c c' : Char)
    (hy : ∀ x ∈ y, eraCharOk c x)
    (h1 : c' ≠ c) (h2 : c'.isDigit = false) (h3 : c' ≠ ' ') (h4 : c' ≠ '年')
    (h5 : c' ≠ '度') (h6 : c' ≠ '元') :
    containsSub y [c'] = false := by
  apply containsSub_single_false
  intro hmem
  rcases hy c' hmem with h | h | h | h | h | h
  · exact h1 h
  · rw [h] at h2
    exact Bool.noConfusion h2
  · exact h3 h
  · exact h4 h
  · exact h5 h
  · exact h6 h

theorem ds_chars (nsp : Nat) (dg : List Char)
    (hdigits : ∀ x ∈ dg, x.isDigit = true) :
    ∀ x ∈ List.replicate nsp ' ' ++ dg, x = ' ' ∨ x.isDigit = true := by
  intro x hx
  rcases List.mem_append.1 hx with h | h
  · exact Or.inl (List.eq_of_mem_replicate h)
  · exact Or.inr (hdigits x h)

theorem char_not_in_ds (nsp : Nat) (dg : List Char)
    (hdigits : ∀ x ∈ dg, x.isDigit = true) (a : Char)
    (ha1 : a.isDigit = false) (ha2 : a ≠ ' ') :
    a ∉ List.replicate nsp ' ' ++ dg := by
  intro hmem
  rcases ds_chars nsp dg hdigits a hmem with h | h
  · exact ha2 h
  · rw [h] at ha1
    exact Bool.noConfusion ha1

theorem replace_chain (c : Char) (nsp : Nat) (dg sfx : List Char)
    (hc1 : c.isDigit = false) (hc2 : c ≠ ' ') (hc3 : c ≠ '年') (hc4 : c ≠ '度')
    (hc5 : c ≠ '元')
    (hdigits : ∀ x ∈ dg, x.isDigit = true)
    (hsfx : sfx = [] ∨ sfx = ['年'] ∨ sfx = ['年', '度']) :
    replaceAll ['元'] ['1']
        (replaceAll ['年'] []
          (replaceAll ['年', '度'] []
            (replaceAll [c] [] ([c] ++ (List.replicate nsp ' ' ++ dg) ++ sfx))))
      = List.replicate nsp ' ' ++ dg := by
  have hcds : c ∉ List.replicate nsp ' ' ++ dg := char_not_in_ds nsp dg hdigits c hc1 hc2
  have hYds : '年' ∉ List.replicate nsp ' ' ++ dg :=
    char_not_in_ds nsp dg hdigits '年' (by decide) (by decide)
  have hDds : '度' ∉ List.replicate nsp ' ' ++ dg :=
    char_not_in_ds nsp dg hdigits '度' (by decide) (by decide)
  have hGds : '元' ∉ List.replicate nsp ' ' ++ dg :=
    char_not_in_ds nsp dg hdigits '元' (by decide) (by decide)
  have hstep1 : replaceAll [c] [] ([c] ++ (List.replicate nsp ' ' ++ dg) ++ sfx)
      = (List.replicate nsp ' ' ++ dg) ++ sfx := by
    rw [replaceAll_single_del]
    rw [List.filter_append, List.filter_append]
    have hhead : ([c] : List Char).filter (fun x => ¬ (x = c)) = [] := by
      simp
    have hds : (List.replicate nsp ' ' ++ dg).filter (fun x => ¬ (x = c))
        = List.replicate nsp ' ' ++ dg := by
      rw [List.filter_eq_self]
      intro a ha
      simp only [decide_not, Bool.not_eq_true', decide_eq_false_iff_not]
      exact fun h => hcds (h ▸ ha)
    have hsf : sfx.filter (fun x => ¬ (x = c)) = sfx := by
      rw [List.filter_eq_self]
      intro a ha
      simp only [decide_not, Bool.not_eq_true', decide_eq_false_iff_not]
      rcases hsfx with h | h | h <;> subst h
      · exact absurd ha (List.not_mem_nil a)
      · intro he
        rcases List.mem_singleton.1 ha with h2
        rw [h2] at he
        exact hc3 he.symm
      · intro he
        rcases List.mem_cons.1 ha with h2 | h2
        · rw [h2] at he
          exact hc3 he.symm
        · rcases List.mem_singleton.1 h2 with h3
          rw [h3] at he
          exact hc4 he.symm
    rw [hhead, hds, hsf, List.nil_append]
  rw [hstep1]
  have hstep2 : replaceAll ['年', '度'] []
      ((List.replicate nsp ' ' ++ dg) ++ sfx)
      = (List.replicate nsp ' ' ++ dg)
        ++ (if sfx = ['年'] then ['年'] else []) := by
    rcases hsfx with h | h | h <;> subst h
    · rw [List.append_nil]
      rw [replaceAll_no_match]
      · rw [if_neg (by simp)]
        rw [List.append_nil]
      · intro hinf
        have hm : '年' ∈ List.replicate nsp ' ' ++ dg :=
          hinf.subset (List.mem_cons_self _ _)
        exact hYds hm
    · rw [if_pos rfl]
      rw [replaceAll_no_match]
      intro hinf
      have hm : '度' ∈ (List.replicate nsp ' ' ++ dg) ++ ['年'] :=
        hinf.subset (List.mem_cons_of_mem _ (List.mem_cons_self _ _))
      rcases List.mem_append.1 hm with h2 | h2
      · exact hDds h2
      · rcases List.mem_singleton.1 h2 with h3
        exact absurd h3 (by decide)
    · rw [if_neg (by decide),
        replaceAll_append_no_head '年' ['度'] [] (List.replicate nsp ' ' ++ dg)
          ['年', '度'] hYds,
        replaceAll_self ['年', '度'] [] (by simp)]
  rw [hstep2]
  have hstep3 : replaceAll ['年'] []
      ((List.replicate nsp ' ' ++ dg) ++ (if sfx = ['年'] then ['年'] else []))
      = List.replicate nsp ' ' ++ dg := by
    rw [replaceAll_single_del, List.filter_append]
    have hds : (List.replicate nsp ' ' ++ dg).filter (fun x => ¬ (x = '年'))
        = List.replicate nsp ' ' ++ dg := by
      rw [List.filter_eq_self]
      intro a ha
      simp only [decide_not, Bool.not_eq_true', decide_eq_false_iff_not]
      exact fun h => hYds (h ▸ ha)
    have htail : (if sfx = ['年'] then (['年'] : List Char) else []).filter
        (fun x => ¬ (x = '年')) = [] := by
      split <;> simp
    rw [hds, htail, List.append_nil]
  rw [hstep3]
  rw [replaceAll_no_match]
  intro hinf
  exact hGds ((mem_iff_singleton_contig '元' _).2 hinf)

/-- Era-year conversion for one era initial `c` with base year `v`:
`convert_year` on `c`, an optional space, one or two digits and an
optional `年`/`年度` suffix returns the base year plus the digits'
value; on `c元` it returns the base year plus one. -/
theorem convert_year_single_era (c : Char) (v : Int)
    (hkv : ([c], v) ∈ year_dic)
    (hc1 : c.isDigit = false) (hc2 : c ≠ ' ') (hc3 : c ≠ '年') (hc4 : c ≠ '度')
    (hc5 : c ≠ '元')
    (hball : ∀ y : List Char, (∀ x ∈ y, eraCharOk c x) →
        ∀ p ∈ year_dic, p ≠ ([c], v) → containsSub y p.1 = false)
    (nsp : Nat) (dg : List Char) (hdg : dg ≠ [])
    (hdigits : ∀ x ∈ dg, x.isDigit = true)
    (sfx : List Char) (hsfx : sfx = [] ∨ sfx = ['年'] ∨ sfx = ['年', '度']) :
    convert_year ([c] ++ (List.replicate nsp ' ' ++ dg) ++ sfx)
        = .int (v + (natOfDigits dg : Int))
    ∧ convert_year ([c] ++ ['元']) = .int (v + 1) := by
  constructor
  · have hyok : ∀ x ∈ [c] ++ (List.replicate nsp ' ' ++ dg) ++ sfx, eraCharOk c x := by
      intro x hx
      rcases List.mem_append.1 hx with h | h
      · rcases List.mem_append.1 h with h2 | h2
        · exact Or.inl (List.mem_singleton.1 h2)
        · rcases ds_chars nsp dg hdigits x h2 with h3 | h3
          · exact Or.inr (Or.inr (Or.inl h3))
          · exact Or.inr (Or.inl h3)
      · rcases hsfx with hs | hs | hs <;> subst hs
        · exact absurd h (List.not_mem_nil x)
        · exact Or.inr (Or.inr (Or.inr (Or.inl (List.mem_singleton.1 h))))
        · rcases List.mem_cons.1 h with h2 | h2
          · exact Or.inr (Or.inr (Or.inr (Or.inl h2)))
          · exact Or.inr (Or.inr (Or.inr (Or.inr
              (Or.inl (List.mem_singleton.1 h2)))))
    have hhit : containsSub ([c] ++ (List.replicate nsp ' ' ++ dg) ++ sfx) [c] = true :=
      (containsSub_single _ c).2 (by simp)
    have hloop := convertYearEra_first_hit _ year_dic [c] v hkv hhit
      (hball _ hyok)
    unfold convert_year
    rw [hloop]
    unfold eraResult
    rw [replace_chain c nsp dg sfx hc1 hc2 hc3 hc4 hc5 hdigits hsfx,
      pyInt_spaces_digits nsp dg hdg hdigits]
  · have hyok : ∀ x ∈ [c] ++ ['元'], eraCharOk c x := by
      intro x hx
      rcases List.mem_append.1 hx with h | h
      · exact Or.inl (List.mem_singleton.1 h)
      · exact Or.inr (Or.inr (Or.inr (Or.inr (Or.inr (List.mem_singleton.1 h)))))
    have hhit : containsSub ([c] ++ ['元']) [c] = true :=
      (containsSub_single _ c).2 (by simp)
    have hloop := convertYearEra_first_hit _ year_dic [c] v hkv hhit
      (hball _ hyok)
    unfold convert_year
    rw [hloop]
    unfold eraResult
    have hs1 : replaceAll [c] [] ([c] ++ ['元']) = ['元'] := by
      rw [replaceAll_single_del]
      have : ('元' : Char) ≠ c := fun h => hc5 h.symm
      simp [this]
    have hs2 : replaceAll ['年', '度'] [] (['元'] : List Char) = ['元'] := by
      rw [replaceAll_no_match]
      intro hinf
      have : '年' ∈ (['元'] : List Char) := hinf.subset (by simp)
      rcases List.mem_singleton.1 this with h
      exact absurd h (by decide)
    have hs3 : replaceAll ['年'] [] (['元'] : List Char) = ['元'] := by
      rw [replaceAll_single_del]
      simp
    have hs4 : replaceAll ['元'] ['1'] (['元'] : List Char) = ['1'] :=
      replaceAll_self ['元'] ['1'] (by simp)
    rw [hs1, hs2, hs3, hs4]
    have : pyInt ['1'] = some 1 := by decide
    rw [this]

/-- C8: for every era key and base year in `year_dic`
(令/R→2018, 平/H→1988, 昭/S→1925, 大/T→1911, 明/M→1867) and every
era-relative year string the grammar recognizes (an optional space, one
or more digits, an optional `年`/`年度` suffix), `convert_year` returns
base year + relative year; the first-year form `元` counts as relative
year 1. -/
theorem convert_year_era_base_plus_relative (k : List Char) (v : Int)
    (hkv : (k, v) ∈ year_dic)
    (nsp : Nat) (dg : List Char) (hdg : dg ≠ [])
    (hdigits : ∀ x ∈ dg, x.isDigit = true)
    (sfx : List Char) (hsfx : sfx = [] ∨ sfx = ['年'] ∨ sfx = ['年', '度']) :
    convert_year (k ++ (List.replicate nsp ' ' ++ dg) ++ sfx)
        = .int (v + (natOfDigits dg : Int))
    ∧ convert_year (k ++ ['元']) = .int (v + 1) := by
  fin_cases hkv <;>
    exact convert_year_single_era _ _ (by decide) (by decide) (by decide)
      (by decide) (by decide) (by decide)
      (by
        intro y hy p hp hne
        fin_cases hp <;>
          first
            | exact absurd rfl hne
            | exact not_containsSub_of_allOk _ _ _ hy (by decide) (by decide)
                (by decide) (by decide) (by decide) (by decide))
      nsp dg hdg hdigits sfx hsfx

/-- Witness for C8: `平成3年` normalizes to `H3年`
(`convert_string`, date_extractor.py:296 maps 平成 to H), and
`convert_year` turns it into `1988 + 3 = 1991` — the year of
`平成3年6月3日`; the first-year form `H元` gives `1988 + 1`. -/
theorem convert_year_era_base_plus_relative_witness :
    convert_year (['H'] ++ (List.replicate 0 ' ' ++ ['3']) ++ ['年'])
        = .int 1991
    ∧ convert_year (['H'] ++ ['元']) = .int 1989 := by
  have h := convert_year_era_base_plus_relative ['H'] 1988 (by decide) 0 ['3']
    (by decide) (by decide) ['年'] (by decide)
  exact ⟨h.1, h.2⟩

end TableLinker
